import Mathlib

/-!
# Verification of the GoXMLProcessor streaming XML-to-HTML site builder

This development is a shallow embedding of `src/ImageProcessor.go` (the final
program text in that file): the single-pass XML token scan that builds the
work/make/model graph, and the HTML site rendering that consumes it.

Modelling conventions:
* Go pointers are replaced by indices: a `Work` refers to its make by an index
  into the global `makes` list (`WMake : Option Nat`), and to its model by a
  pair `(make index, index into that make's Models list)`
  (`WModel : Option (Nat × Nat)`).  In the Go program `newWork`, when non-nil,
  always aliases the most recently appended element of `works` (it is assigned
  only at `createWork()`/`append` time and reset to `nil`), so it is modelled
  as the boolean `newWorkOpen` plus access to the last element of `works`.
* The XML decoder is replaced by a token list; `xml.StartElement` carries the
  local name and the list of attribute values (the code reads only `val.Value`),
  `xml.EndElement` the local name, `xml.CharData` the text.
* Every `os.Exit(1)` path (and the nil-pointer panic that `newWork.WMake`
  would raise at a `</work>` with `newWork == nil`) is an `Except.error`;
  file generation happens only after the whole scan succeeded, mirroring the
  program structure.
* The output directory is modelled as an association list from file name to
  file content; `os.Create` truncates, so writing is an upsert.
-/

namespace ImageProcessor

/-- A photographic work (`type Work struct` in the source).  `WMake` is an
index into the global makes list, `WModel` a pair of a make index and an index
into that make's `Models` list. -/
structure Work where
  ID : Int
  FileName : String
  WMake : Option Nat
  WModel : Option (Nat × Nat)
  URISmall : String
  URIMedium : String
  URILarge : String
deriving Repr, DecidableEq, Inhabited

/-- A camera model (`type Model struct`).  `MMake` is the back-reference to the
owning make (an index), `Works` the list of indices of works linked to this
model. -/
structure Model where
  ID : Int
  MMake : Nat
  Works : List Nat
  Name : String
  PageURL : String
deriving Repr, DecidableEq, Inhabited

/-- A camera make (`type Make struct`). `Works` holds indices of works linked
to this make. -/
structure Make where
  ID : Int
  Name : String
  Models : List Model
  Works : List Nat
  PageURL : String
deriving Repr, DecidableEq, Inhabited

/-- Alphanumeric in the sense of the regular expression `[A-Za-z0-9]`. -/
def isAlnum (c : Char) : Bool :=
  ('A' ≤ c && c ≤ 'Z') || ('a' ≤ c && c ≤ 'z') || ('0' ≤ c && c ≤ '9')

/-- Single pass of `reg.ReplaceAllString(name, "-")` for `reg = [^A-Za-z0-9]+`:
each leftmost maximal run of non-alphanumeric characters is replaced by a
single `-`.  The boolean records whether the scan is inside such a run. -/
def collapseAux : Bool → List Char → List Char
  | _, [] => []
  | inRun, c :: cs =>
    if isAlnum c then c :: collapseAux false cs
    else if inRun then collapseAux true cs
    else '-' :: collapseAux true cs

def collapseNonAlnum (l : List Char) : List Char :=
  collapseAux false l

/-- The slug used for `PageURL` fields. -/
def slug (name : String) : String :=
  String.mk (collapseNonAlnum name.data)

/-- `createMake` from the source (the `ID` field is never assigned in Go and
stays at its zero value). -/
def createMake (name : String) : Make :=
  { ID := 0, Name := name, Models := [], Works := [], PageURL := slug name }

/-- `createModel` from the source; `mk` is the index of the make passed as the
`make *Make` argument. -/
def createModel (name : String) (mk : Nat) : Model :=
  { ID := 0, MMake := mk, Works := [], Name := name, PageURL := slug name }

/-- `createWork` from the source. -/
def createWork : Work :=
  { ID := -1, FileName := "", WMake := none, WModel := none,
    URISmall := "", URIMedium := "", URILarge := "" }

/-- The whitespace set of `strings.TrimSpace` (`unicode.IsSpace` for the
Latin-1 range). -/
def isSpaceChar (c : Char) : Bool :=
  c = ' ' || c = '\t' || c = '\n' || c.toNat = 11 || c.toNat = 12 || c = '\r'
    || c.toNat = 133 || c.toNat = 160

/-- `strings.TrimSpace`: strip leading and trailing whitespace. -/
def trimStr (s : String) : String :=
  String.mk (((s.data.dropWhile isSpaceChar).reverse.dropWhile isSpaceChar).reverse)

/-- `strconv.Atoi`: optional sign followed by at least one decimal digit
(machine-word overflow is not modelled; the feed ids are small). -/
def digitsToNat : List Char → Option Nat
  | [] => none
  | l => l.foldlM (fun acc c => if c.isDigit then some (acc * 10 + (c.toNat - 48)) else none) 0

def atoi (s : String) : Option Int :=
  match s.data with
  | '+' :: rest => (digitsToNat rest).map (fun n => (n : Int))
  | '-' :: rest => (digitsToNat rest).map (fun n => -(n : Int))
  | l => (digitsToNat l).map (fun n => (n : Int))

/-- One XML token, as delivered by `xml.Decoder.Token()`. -/
inductive Token where
  | startEl (name : String) (attrVals : List String)
  | endEl (name : String)
  | charData (data : String)
deriving Repr, DecidableEq

/-- Each fatal path of the scan loop: every `os.Exit(1)` call plus the
nil-pointer panic the finalization code would hit on a `</work>` without an
open work. -/
inductive PError where
  | popEmpty (name : String)
  | popMismatch (popped expected : String)
  | idConvert
  | idOrphan
  | filenameOrphan
  | makeOrphan
  | noWorks
  | nilWorkPanic
deriving Repr, DecidableEq

/-- The mutable state of the scan loop.  `stack` is the context stack with the
innermost open element at the head; `worksSM` holds indices of works without a
make; `newWorkOpen` models `newWork != nil` (the open work is always the last
element of `works`). -/
structure PState where
  stack : List String
  works : List Work
  makes : List Make
  worksSM : List Nat
  newWorkOpen : Bool
  newModelDetected : Bool
  newModel : String
  thumbnailURI : Bool
  mediumURI : Bool
  largeURI : Bool
deriving Repr, DecidableEq

deriving instance DecidableEq for Except

def initState : PState :=
  { stack := [], works := [], makes := [], worksSM := [],
    newWorkOpen := false, newModelDetected := false, newModel := "",
    thumbnailURI := false, mediumURI := false, largeURI := false }

/-- Update the last element of a list (the Go code mutates
`works[len(works)-1]` through a pointer; on an empty list nothing happens,
matching the `len(works) > 0` guards). -/
def updLast : List α → (α → α) → List α
  | [], _ => []
  | [x], f => [f x]
  | x :: xs, f => x :: updLast xs f

/-- Update the element at an index, leaving other elements (and out-of-range
indices) unchanged. -/
def updIdx : List α → Nat → (α → α) → List α
  | [], _, _ => []
  | x :: xs, 0, f => f x :: xs
  | x :: xs, n + 1, f => x :: updIdx xs n f

/-- The make scan loop: first entry whose `Name` equals `name` (the Go loop
breaks on the first hit). -/
def findMakeIdx (makes : List Make) (name : String) : Option Nat :=
  match makes with
  | [] => none
  | m :: ms => if m.Name = name then some 0 else (findMakeIdx ms name).map (· + 1)

/-- The registry lookup-or-create step of the make `CharData` branch: reuse the
first make with a matching name, or append a fresh one.  Returns the index of
the instance together with the (possibly grown) registry. -/
def internMake (makes : List Make) (name : String) : Nat × List Make :=
  match findMakeIdx makes name with
  | some i => (i, makes)
  | none => (makes.length, makes ++ [createMake name])

/-- The model scan loop of the source has no `break`, so the LAST entry with a
matching name wins. -/
def lastModelIdx (models : List Model) (name : String) : Option Nat :=
  match models with
  | [] => none
  | m :: ms =>
    match lastModelIdx ms name with
    | some j => some (j + 1)
    | none => if m.Name = name then some 0 else none

/-- `strings.TrimSpace` then the blank-to-generic substitution of the make
branch. -/
def normalizeMakeName (raw : String) : String :=
  let t := trimStr raw
  if t = "" then "(Generic make)" else t

/-- The `id` CharData branch: `Atoi` runs first (so a non-numeric orphan id is
a conversion error), then the nil-work check. -/
def stepId (s : PState) (d : String) : Except PError PState :=
  if s.stack.head? = some "id" then
    match atoi d with
    | none => .error .idConvert
    | some n =>
      if s.newWorkOpen then
        .ok { s with works := updLast s.works (fun w => { w with ID := n }) }
      else .error .idOrphan
  else .ok s

/-- The `filename` CharData branch. -/
def stepFilename (s : PState) (d : String) : Except PError PState :=
  if s.stack.head? = some "filename" then
    if s.newWorkOpen then
      .ok { s with works := updLast s.works (fun w => { w with FileName := d }) }
    else .error .filenameOrphan
  else .ok s

/-- The deferred model resolution block that runs inside the make branch when
`newModelDetected` is set.  `s1` is the state after the make assignment and
`mi` the index of the interned make (the `thisMake` passed to `createModel`). -/
def stepMakeModelPending (s1 : PState) (mi : Nat) : Except PError PState :=
  if s1.newModelDetected then
    match s1.works.getLast? with
    | none => .error .noWorks
    | some w =>
      let nm := if s1.newModel = "" then "(Generic model)" else s1.newModel
      match w.WMake with
      | none =>
        -- `thisWork.WMake == nil`: no scan, no linking; `newModel` is reset
        .ok { s1 with newModel := "", newModelDetected := false }
      | some wm =>
        match lastModelIdx ((s1.makes.getD wm default).Models) nm with
        | some j =>
          .ok { s1 with
                  works := updLast s1.works (fun w => { w with WModel := some (wm, j) }),
                  newModelDetected := false }
        | none =>
          let jNew := (s1.makes.getD wm default).Models.length
          let newMd := createModel nm mi
          .ok { s1 with
                  makes := updIdx s1.makes wm (fun mk => { mk with Models := mk.Models ++ [newMd] }),
                  works := updLast s1.works (fun w => { w with WModel := some (wm, jNew) }),
                  newModel := "",
                  newModelDetected := false }
  else .ok s1

/-- The `make` CharData branch: intern the (normalized) make name, assign it to
the current work, then run the deferred model resolution. -/
def stepMake (s : PState) (d : String) : Except PError PState :=
  if s.stack.head? = some "make" then
    if s.newWorkOpen then
      let name := if d = "" then "(Generic make)" else d
      let im := internMake s.makes name
      stepMakeModelPending
        { s with
          makes := im.2,
          works := updLast s.works (fun w => { w with WMake := some im.1 }) } im.1
    else .error .makeOrphan
  else .ok s

/-- The `model` CharData branch: record the (trimmed) name and raise the
pending flag.  No nil-work check in the source. -/
def stepModel (s : PState) (d : String) : PState :=
  if s.stack.head? = some "model" then
    { s with newModel := d, newModelDetected := true }
  else s

/-- The `thumbnailURI` one-shot block of the CharData case; the source guards
it with `len(works) > 0` only, not with `newWork != nil`. -/
def uriBlockSmall (s : PState) (d : String) : PState :=
  if s.thumbnailURI then
    let s := if s.works.length > 0 then
               { s with works := updLast s.works (fun w => { w with URISmall := d }) }
             else s
    { s with thumbnailURI := false }
  else s

/-- The `mediumURI` one-shot block. -/
def uriBlockMedium (s : PState) (d : String) : PState :=
  if s.mediumURI then
    let s := if s.works.length > 0 then
               { s with works := updLast s.works (fun w => { w with URIMedium := d }) }
             else s
    { s with mediumURI := false }
  else s

/-- The `largeURI` one-shot block. -/
def uriBlockLarge (s : PState) (d : String) : PState :=
  if s.largeURI then
    let s := if s.works.length > 0 then
               { s with works := updLast s.works (fun w => { w with URILarge := d }) }
             else s
    { s with largeURI := false }
  else s

/-- The three one-shot URI-flag blocks at the end of the CharData case, in
source order. -/
def stepURI (s : PState) (d : String) : PState :=
  uriBlockLarge (uriBlockMedium (uriBlockSmall s d) d) d

/-- `thisMake.Works = append(thisMake.Works, thisWork)` on the make at a given
index. -/
def addWorkTo (i : Nat) (mk : Make) : Make :=
  { mk with Works := mk.Works ++ [i] }

/-- `thisModel.Works = append(thisModel.Works, thisWork)` on model `j` of a
make. -/
def addModelWorkTo (j i : Nat) (mk : Make) : Make :=
  { mk with Models := updIdx mk.Models j (fun md => { md with Works := md.Works ++ [i] }) }

/-- The `</work>` finalization: link the finished work (always the last element
of `works`) into `worksSM` or into its make's and model's `Works` lists, then
reset the per-work state. -/
def finalizeWork (s : PState) : Except PError PState :=
  if s.newWorkOpen then
    match s.works.getLast? with
    | none => .error .nilWorkPanic
    | some w =>
      let i := s.works.length - 1
      let s := if w.WMake = none then { s with worksSM := s.worksSM ++ [i] } else s
      let s :=
        match w.WMake, w.WModel with
        | some mi, some mj =>
          let s := { s with makes := updIdx s.makes mi (addWorkTo i) }
          { s with makes := updIdx s.makes mj.1 (addModelWorkTo mj.2 i) }
        | _, _ => s
      .ok { s with newWorkOpen := false, newModelDetected := false, newModel := "" }
  else
    -- `thisMake := newWork.WMake` dereferences a nil pointer: runtime panic
    .error .nilWorkPanic

/-- One attribute of a `url` start element: raise the one-shot flag when the
value is `small`, `medium` or `large`. -/
def urlAttrOne (st : PState) (v : String) : PState :=
  let st := if v = "small" then { st with thumbnailURI := true } else st
  let st := if v = "medium" then { st with mediumURI := true } else st
  if v = "large" then { st with largeURI := true } else st

/-- The attribute scan of a `url` start element. -/
def applyUrlAttrs (s : PState) (attrVals : List String) : PState :=
  attrVals.foldl urlAttrOne s

/-- One iteration of the scan loop. -/
def step (s : PState) (t : Token) : Except PError PState :=
  match t with
  | .startEl name attrVals =>
    let s := { s with stack := name :: s.stack }
    let s :=
      if name = "work" then
        { s with works := s.works ++ [createWork], newWorkOpen := true }
      else s
    let s := if name = "url" then applyUrlAttrs s attrVals else s
    .ok s
  | .endEl name =>
    match s.stack with
    | [] => .error (.popEmpty name)
    | popped :: rest =>
      if popped = name then
        let s := { s with stack := rest }
        if popped = "work" then finalizeWork s else .ok s
      else .error (.popMismatch popped name)
  | .charData data =>
    let d := trimStr data
    (stepId s d).bind fun s =>
      (stepFilename s d).bind fun s =>
        (stepMake s d).map fun s =>
          stepURI (stepModel s d) d

/-- The scan loop over a whole token stream. -/
def parseSteps : List Token → PState → Except PError PState
  | [], s => .ok s
  | t :: ts, s => (step s t).bind (parseSteps ts)

/-- Run the scan from the initial state. -/
def parseRun (ts : List Token) : Except PError PState :=
  parseSteps ts initState

/-! ## Site rendering (the HTML generation that runs after a successful scan) -/

/-- `html.EscapeString` escapes the five characters `& ' < > "`. -/
def escChar (c : Char) : List Char :=
  if c = '&' then "&amp;".data
  else if c = '\'' then "&#39;".data
  else if c = '<' then "&lt;".data
  else if c = '>' then "&gt;".data
  else if c = '"' then "&#34;".data
  else [c]

def escapeString (s : String) : String :=
  String.mk (s.data.flatMap escChar)

/-- One thumbnail: `"<img src=" + html.EscapeString(wk.URISmall) + "> "`. -/
def imgTag (w : Work) : String :=
  "<img src=" ++ escapeString w.URISmall ++ "> "

/-- One `<option>` of the index dropdown. -/
def makeOptionTag (mk : Make) : String :=
  "<option value=\"" ++ escapeString mk.PageURL ++ ".html\">" ++ escapeString mk.Name ++ "</option>"

/-- The index page dropdown over all makes, plus the `(no make/generic)` entry
when `worksSM` is non-empty. -/
def indexNavigation (s : PState) : String :=
  let nav := s.makes.foldl (fun acc mk => acc ++ makeOptionTag mk)
    "<select onchange=\"if (this.value) window.location.href=this.value\"><option value=\"\">-- select a camera make</option>"
  if s.worksSM.length > 0 then
    nav ++ "<option value=\"nomake.html\">(no make/generic)</option></select>"
  else nav ++ "</select>"

/-- Thumbnails of the first 10 works (the loop breaks once `imgCount` hits 10). -/
def indexContent (s : PState) : String :=
  ((s.works.take 10).map imgTag).foldl (· ++ ·) ""

def indexPage (s : PState) : String :=
  "<!DOCTYPE html><html><head><title>Welcome to Phoots!</title><style type=\"text/css\">nav \x7b margin: 10px;\t\x7d</style></head><body><header><h1>Welcome to Photos!</h1><nav>"
    ++ indexNavigation s ++ "</nav></header>" ++ indexContent s ++ "</body></html>"

/-- The model dropdown of a make page. -/
def modelNavigation (mk : Make) : String :=
  (mk.Models.foldl
    (fun acc md => acc ++ "<option value=\"" ++ escapeString md.PageURL ++ ".html\">"
        ++ escapeString md.Name ++ "</option>")
    "<select onchange=\"if (this.value) window.location.href=this.value\"><option value=\"\">-- select a camera model</option>")
  ++ "</select>"

/-- Whether a work passes the make-page filter
`wk != nil && wk.WMake != nil && wk.WMake.Name == mk.Name`. -/
def passesMakeFilter (s : PState) (mk : Make) (w : Work) : Bool :=
  match w.WMake with
  | some m => (s.makes.getD m default).Name = mk.Name
  | none => false

/-- Thumbnails of the first 10 works of a make's `Works` list that pass the
name filter. -/
def makeWorksImgs (s : PState) (mk : Make) : String :=
  let sel := (mk.Works.map (fun i => s.works.getD i default)).filter (passesMakeFilter s mk)
  ((sel.take 10).map imgTag).foldl (· ++ ·) ""

/-- The per-make page.  The first insertion of `mk.Name` (in the title) is
escaped, the second (inside `<i>`) is inserted raw, exactly as in the source. -/
def makePage (s : PState) (mk : Make) : String :=
  "<!DOCTYPE html><html><head><title>All photos taken with a " ++ escapeString mk.Name
    ++ "</title><style type=\"text/css\">nav \x7b margin: 10px;\t\x7d</style></head><body><header><h1>All photos taken with a <i>"
    ++ mk.Name
    ++ "</i> camera</h1><nav><a href=\"index.html\">back to homepage</a> | " ++ modelNavigation mk
    ++ "</nav></header>" ++ makeWorksImgs s mk ++ "</body></html>"

/-- The page written (and re-written) to `nomake.html` for one no-make work. -/
def genericPage (w : Work) : String :=
  "<!DOCTYPE html><html><head><title>Generic Photographic Works</title><style type=\"text/css\">nav \x7b margin: 10px;\t\x7d</style></head><body><header><h1>Generic Photos</h1><nav><a href=\"index.html\">back to homepage</a> </nav></header>"
    ++ imgTag w ++ "</body></html>"

/-- Thumbnails of the first 10 works of a model's `Works` list passing the
make-name filter. -/
def modelWorksImgs (s : PState) (mk : Make) (md : Model) : String :=
  let sel := (md.Works.map (fun i => s.works.getD i default)).filter (passesMakeFilter s mk)
  ((sel.take 10).map imgTag).foldl (· ++ ·) ""

/-- The per-model page. -/
def modelPage (s : PState) (mk : Make) (md : Model) : String :=
  "<!DOCTYPE html><html><head><title>All photos taken with a " ++ escapeString md.Name
    ++ "</title><style type=\"text/css\">nav \x7b margin: 10px;\t\x7d</style></head><body><header><h1>All photos taken with a <i>"
    ++ escapeString md.Name
    ++ "</i> camera</h1><nav><a href=\"index.html\">back to homepage</a> | <a href=\""
    ++ escapeString mk.PageURL ++ ".html\">back to make</a></nav></header>"
    ++ modelWorksImgs s mk md ++ "</body></html>"

/-- The output directory as an association list; `os.Create` truncates, so a
write replaces an existing entry. -/
def upsert (store : List (String × String)) (k v : String) : List (String × String) :=
  match store with
  | [] => [(k, v)]
  | (k0, v0) :: rest => if k0 = k then (k, v) :: rest else (k0, v0) :: upsert rest k v

/-- The whole generation phase, in source order: `index.html`, one page per
make, the `nomake.html` loop (one `os.Create` per no-make work), one page per
model. -/
def renderSite (s : PState) : List (String × String) :=
  let st := upsert [] "index.html" (indexPage s)
  let st := s.makes.foldl (fun st mk => upsert st (mk.PageURL ++ ".html") (makePage s mk)) st
  let st :=
    if s.worksSM.length > 0 then
      s.worksSM.foldl (fun st wi => upsert st "nomake.html" (genericPage (s.works.getD wi default))) st
    else st
  s.makes.foldl (fun st mk =>
    mk.Models.foldl (fun st md => upsert st (md.PageURL ++ ".html") (modelPage s mk md)) st) st

/-- The whole program on a token stream: run the scan; only on success is the
site rendered (parsing completes fully before any file is created). -/
def programRun (ts : List Token) : Except PError (List (String × String)) :=
  (parseRun ts).map renderSite

/-- The files the program leaves on disk: none when the run aborted. -/
def outputFiles (r : Except PError (List (String × String))) : List (String × String) :=
  match r with
  | .error _ => []
  | .ok fs => fs

/-! ## Pure analysis functions used to state the claims -/

/-- Pure simulation of just the context stack: `false` iff some end-tag pops an
empty stack or a non-matching top entry. -/
def stackSim : List Token → List String → Bool
  | [], _ => true
  | .startEl n _ :: ts, st => stackSim ts (n :: st)
  | .endEl n :: ts, st =>
    match st with
    | [] => false
    | p :: rest => if p = n then stackSim ts rest else false
  | .charData _ :: ts, st => stackSim ts st

/-- Number of positions where the substring `<img` starts. -/
def countImg : List Char → Nat
  | [] => 0
  | c :: rest => (if c = '<' ∧ rest.take 3 = ['i', 'm', 'g'] then 1 else 0) + countImg rest

def listStartsWith : List Char → List Char → Bool
  | [], _ => true
  | _ :: _, [] => false
  | p :: ps, c :: cs => p = c && listStartsWith ps cs

/-- Substring test used to exhibit unescaped insertions. -/
def containsSub (pat : List Char) : List Char → Bool
  | [] => listStartsWith pat []
  | c :: cs => listStartsWith pat (c :: cs) || containsSub pat cs

/-- Maximal runs of characters of the same alphanumeric class. -/
def chunks : List Char → List (List Char)
  | [] => []
  | c :: cs =>
    (c :: cs.takeWhile (fun d => isAlnum d = isAlnum c))
      :: chunks (cs.dropWhile (fun d => isAlnum d = isAlnum c))
termination_by l => l.length
decreasing_by
  simp only [List.length_cons]
  have h : ∀ (p : Char → Bool) (l : List Char), (l.dropWhile p).length ≤ l.length := by
    intro p l
    induction l with
    | nil => simp
    | cons a t ih =>
      rw [List.dropWhile_cons]
      split
      · exact Nat.le_succ_of_le ih
      · simp
  exact Nat.lt_succ_of_le (h _ _)

/-- The spec's wording of slug derivation: split the name into maximal runs,
keep the alphanumeric runs, replace every non-alphanumeric run by a single
separator. -/
def slugSpecChars (l : List Char) : List Char :=
  ((chunks l).map (fun g => if g.all isAlnum then g else ['-'])).flatten

def slugSpec (name : String) : String :=
  String.mk (slugSpecChars name.data)

/-- Number of works not yet finalized, relative to a finalization flag `cl`. -/
def unclosedCount (n : Nat) (cl : Nat → Bool) : Nat :=
  ((List.range n).filter (fun k => cl k = false)).length

/-- Mark index `i` as finalized. -/
def clUpd (cl : Nat → Bool) (i : Nat) : Nat → Bool :=
  fun k => if k = i then true else cl k

/-- The graph invariant the scan loop maintains, relative to a ghost
finalization flag `cl` (`cl i = true` iff work `i` has been linked by its
`</work>` finalization).  The membership counts characterize exactly which
works sit in which `Works` lists. -/
structure GraphInv (s : PState) (cl : Nat → Bool) : Prop where
  open_ne : s.newWorkOpen = true → s.works ≠ []
  open_cl : s.newWorkOpen = true → cl (s.works.length - 1) = false
  cl_bound : ∀ k, s.works.length ≤ k → cl k = false
  make_count : ∀ i m, ((s.makes.getD m default).Works).count i
      = if cl i = true ∧ (s.works.getD i default).WMake = some m
           ∧ ((s.works.getD i default).WModel).isSome = true then 1 else 0
  model_count : ∀ i m j, (((s.makes.getD m default).Models.getD j default).Works).count i
      = if cl i = true ∧ (s.works.getD i default).WModel = some (m, j) then 1 else 0
  sm_count : ∀ i, s.worksSM.count i
      = if cl i = true ∧ (s.works.getD i default).WMake = none then 1 else 0
  wmake_lt : ∀ i m, i < s.works.length → (s.works.getD i default).WMake = some m →
      m < s.makes.length
  wmodel_lt : ∀ i m j, i < s.works.length → (s.works.getD i default).WModel = some (m, j) →
      m < s.makes.length ∧ j < ((s.makes.getD m default).Models).length
  model_make : ∀ i, ((s.works.getD i default).WModel).isSome = true →
      ((s.works.getD i default).WMake).isSome = true

/-- Full invariant: the graph invariant plus the bound tying unfinalized works
to `work` entries still on the context stack. -/
def Inv (s : PState) (cl : Nat → Bool) : Prop :=
  GraphInv s cl ∧ unclosedCount s.works.length cl ≤ s.stack.count "work"

/-! ## Concrete token streams and states used by witnesses and counterexamples -/

/-- A balanced feed with one work carrying both a model and a make. -/
def tsGraphDemo : List Token :=
  [.startEl "works" [], .startEl "work" [],
   .startEl "model" [], .charData "D90", .endEl "model",
   .startEl "make" [], .charData "Nikon", .endEl "make",
   .endEl "work", .endEl "works"]

def stGraphDemo : PState := (parseRun tsGraphDemo).toOption.getD initState

/-- A balanced feed with one work that has a make but no model. -/
def tsMakeOnly : List Token :=
  [.startEl "works" [], .startEl "work" [],
   .startEl "make" [], .charData "Nikon", .endEl "make",
   .endEl "work", .endEl "works"]

def stMakeOnly : PState := (parseRun tsMakeOnly).toOption.getD initState

/-- A balanced feed with one work that has neither make nor model. -/
def tsPartDemo : List Token :=
  [.startEl "works" [], .startEl "work" [], .endEl "work", .endEl "works"]

def stPartDemo : PState := (parseRun tsPartDemo).toOption.getD initState

/-- A second make-but-no-model feed (different make name). -/
def tsMakeOnly2 : List Token :=
  [.startEl "works" [], .startEl "work" [],
   .startEl "make" [], .charData "Canon", .endEl "make",
   .endEl "work", .endEl "works"]

def stMakeOnly2 : PState := (parseRun tsMakeOnly2).toOption.getD initState

/-- Iterated interning of a sequence of raw make names (each normalized as in
the make branch). -/
def foldIntern (rs : List String) (ms : List Make) : List Make :=
  rs.foldl (fun ms r => (internMake ms (normalizeMakeName r)).2) ms

/-- The name list an interning fold builds: append each new name once. -/
def foldDistinct (ns : List String) (acc : List String) : List String :=
  ns.foldl (fun acc n => if n ∈ acc then acc else acc ++ [n]) acc

/-- Raw names used by the C3 witness. -/
def demoMakeNames : List String :=
  ["Nikon", " Nikon ", "Canon", ""]

/-- A stream whose first token is an unmatched end-tag. -/
def tsUnmatched : List Token :=
  [.endEl "work"]

/-- Does the stream contain a `make` start element? -/
def hasMakeStart : List Token → Bool
  | [] => false
  | .startEl n _ :: ts => (n = "make") || hasMakeStart ts
  | _ :: ts => hasMakeStart ts

/-- A work whose second model token is followed by no make token: the pending
name `B` is never resolved, yet the work closes with the earlier model. -/
def tsModelAfterMake : List Token :=
  [.startEl "works" [], .startEl "work" [],
   .startEl "model" [], .charData "A", .endEl "model",
   .startEl "make" [], .charData "M", .endEl "make",
   .startEl "model" [], .charData "B", .endEl "model",
   .endEl "work", .endEl "works"]

/-- A state inside `<work><model>` with no URI flag raised. -/
def sModelCtx : PState :=
  { initState with stack := ["model", "work"], works := [createWork], newWorkOpen := true }

/-- A state inside `<work><make>` with a pending model name. -/
def sMakePending : PState :=
  { initState with
    stack := ["make", "work"]
    works := [createWork]
    newWorkOpen := true
    newModelDetected := true
    newModel := "D90" }

/-- A stream with a model token and no make element at all. -/
def tsNoMakeStream : List Token :=
  [.startEl "works" [], .startEl "work" [],
   .startEl "model" [], .charData "A", .endEl "model",
   .endEl "work", .endEl "works"]

/-- The final state of `tsNoMakeStream`. -/
def sNoMakeFinal : PState :=
  { initState with works := [createWork], worksSM := [0] }

/-- Every element of `a` that is not the last one is unchanged in `b` (the
open work is always the last element, so this is per-step immutability of all
earlier works). -/
def NonLastPres (a b : List Work) : Prop :=
  a.length ≤ b.length ∧ ∀ i, i + 1 < a.length → b.getD i default = a.getD i default

/-- A stream whose work is finalized and afterwards hit by a url/small text
token. -/
def tsMutate : List Token :=
  [.startEl "works" [], .startEl "work" [], .endEl "work",
   .startEl "url" ["small"], .charData "boom", .endEl "url", .endEl "works"]

/-- An open-work state with two works, inside `<id>`. -/
def sTwoWorks : PState :=
  { initState with
    stack := ["id", "work", "works"]
    works := [createWork, createWork]
    newWorkOpen := true }

/-- `sTwoWorks` after the id text token `7`. -/
def sTwoWorksAfter : PState :=
  { initState with
    stack := ["id", "work", "works"]
    works := [createWork, { createWork with ID := 7 }]
    newWorkOpen := true }

/-- A state whose single work is finalized (no work open, no flag raised). -/
def sClosedState : PState :=
  { initState with works := [createWork], worksSM := [0] }

/-- `sClosedState` after an unrelated start element. -/
def sClosedAfter : PState :=
  { initState with stack := ["p"], works := [createWork], worksSM := [0] }

/-- Is the scan result an abort? -/
def exceptIsErr : Except PError PState → Bool
  | .error _ => true
  | .ok _ => false

/-- An orphan model text token: no enclosing work. -/
def tsOrphanModelStream : List Token :=
  [.startEl "works" [], .startEl "model" [], .charData "X", .endEl "model", .endEl "works"]

/-- An orphan url/small text token: no enclosing work, empty works list. -/
def tsOrphanUrlStream : List Token :=
  [.startEl "works" [], .startEl "url" ["small"], .charData "u", .endEl "url", .endEl "works"]

/-- Orphan-field states: inside the given field element with no open work. -/
def sOrphanId : PState := { initState with stack := ["id", "works"] }

def sOrphanFn : PState := { initState with stack := ["filename", "works"] }

def sOrphanMk : PState := { initState with stack := ["make", "works"] }

def sOrphanMd : PState := { initState with stack := ["model", "works"] }

def sOrphanUrl : PState := { initState with stack := ["url", "works"], thumbnailURI := true }

/-- Two no-make works; the second one carries a thumbnail URL. -/
def sNomakeTwo : PState :=
  { initState with
    works := [createWork, { createWork with URISmall := "b.jpg" }]
    worksSM := [0, 1] }

/-! ## Basic lemmas about the list helpers -/

theorem length_updLast (l : List α) (f : α → α) : (updLast l f).length = l.length := by
  induction l with
  | nil => rfl
  | cons x xs ih =>
    cases xs with
    | nil => rfl
    | cons y ys => simpa [updLast] using ih

theorem getD_updLast_of_lt (l : List α) (f : α → α) (i : Nat) (d : α) (h : i + 1 < l.length) :
    (updLast l f).getD i d = l.getD i d := by
  induction l generalizing i with
  | nil => rfl
  | cons x xs ih =>
    cases xs with
    | nil => simp at h
    | cons y ys =>
      cases i with
      | zero => rfl
      | succ i =>
        simp only [updLast, List.getD_cons_succ]
        exact ih i (by simpa using h)

theorem getD_updLast_last (l : List α) (f : α → α) (d : α) (h : l ≠ []) :
    (updLast l f).getD (l.length - 1) d = f (l.getD (l.length - 1) d) := by
  induction l with
  | nil => exact absurd rfl h
  | cons x xs ih =>
    cases xs with
    | nil => rfl
    | cons y ys =>
      have hlen : (x :: y :: ys).length - 1 = ((y :: ys).length - 1) + 1 := by
        simp
      rw [hlen]
      simp only [updLast, List.getD_cons_succ]
      exact ih (by simp)

theorem getD_updLast_of_ge (l : List α) (f : α → α) (i : Nat) (d : α) (h : l.length ≤ i) :
    (updLast l f).getD i d = d := by
  apply List.getD_eq_default
  rw [length_updLast]
  exact h

theorem getLast?_updLast (l : List α) (f : α → α) :
    (updLast l f).getLast? = l.getLast?.map f := by
  induction l with
  | nil => rfl
  | cons x xs ih =>
    cases xs with
    | nil => rfl
    | cons y ys =>
      have h2 : updLast (x :: y :: ys) f = x :: updLast (y :: ys) f := rfl
      cases ys with
      | nil => simp [updLast]
      | cons z zs =>
        have h3 : updLast (y :: z :: zs) f = y :: updLast (z :: zs) f := rfl
        calc (updLast (x :: y :: z :: zs) f).getLast?
            = (updLast (y :: z :: zs) f).getLast? := by
              rw [h2, h3]; exact List.getLast?_cons_cons
          _ = ((y :: z :: zs).getLast?).map f := ih
          _ = ((x :: y :: z :: zs).getLast?).map f := by
              rw [show (x :: y :: z :: zs).getLast? = (y :: z :: zs).getLast? from
                List.getLast?_cons_cons]

theorem length_updIdx (l : List α) (i : Nat) (f : α → α) : (updIdx l i f).length = l.length := by
  induction l generalizing i with
  | nil => rfl
  | cons x xs ih =>
    cases i with
    | zero => rfl
    | succ i => simpa [updIdx] using ih i

theorem getD_updIdx_self (l : List α) (i : Nat) (f : α → α) (d : α) (h : i < l.length) :
    (updIdx l i f).getD i d = f (l.getD i d) := by
  induction l generalizing i with
  | nil => simp at h
  | cons x xs ih =>
    cases i with
    | zero => rfl
    | succ i =>
      simp only [updIdx, List.getD_cons_succ]
      exact ih i (by simpa using h)

theorem getD_updIdx_ne (l : List α) (i : Nat) (f : α → α) (j : Nat) (d : α) (h : j ≠ i) :
    (updIdx l i f).getD j d = l.getD j d := by
  induction l generalizing i j with
  | nil => rfl
  | cons x xs ih =>
    cases i with
    | zero =>
      cases j with
      | zero => exact absurd rfl h
      | succ j => rfl
    | succ i =>
      cases j with
      | zero => rfl
      | succ j =>
        simp only [updIdx, List.getD_cons_succ]
        exact ih i j (by omega)

theorem unclosedCount_congr (n : Nat) (cl cl' : Nat → Bool) (h : ∀ k, k < n → cl k = cl' k) :
    unclosedCount n cl = unclosedCount n cl' := by
  unfold unclosedCount
  have he : (List.range n).filter (fun k => cl k = false)
      = (List.range n).filter (fun k => cl' k = false) := by
    apply List.filter_congr
    intro a ha
    simp only [List.mem_range] at ha
    simp [h a ha]
  rw [he]

theorem unclosedCount_succ (n : Nat) (cl : Nat → Bool) :
    unclosedCount (n + 1) cl = unclosedCount n cl + (if cl n = false then 1 else 0) := by
  unfold unclosedCount
  rw [List.range_succ, List.filter_append, List.length_append]
  congr 1
  by_cases h : cl n = false <;> simp [h]

theorem unclosedCount_update (n i : Nat) (cl : Nat → Bool) (hi : i < n) (hcl : cl i = false) :
    unclosedCount n (clUpd cl i) + 1 = unclosedCount n cl := by
  induction n with
  | zero => omega
  | succ n ih =>
    rw [unclosedCount_succ, unclosedCount_succ]
    by_cases h : i = n
    · subst h
      have h1 : unclosedCount i (clUpd cl i) = unclosedCount i cl := by
        apply unclosedCount_congr
        intro k hk
        simp only [clUpd]
        rw [if_neg (by omega)]
      simp [clUpd, hcl, h1]
    · have h2 : clUpd cl i n = cl n := by
        simp only [clUpd]
        rw [if_neg (by omega)]
      have h3 := ih (by omega)
      rw [h2]
      split <;> omega

theorem findMakeIdx_some (makes : List Make) (name : String) (i : Nat)
    (h : findMakeIdx makes name = some i) :
    i < makes.length ∧ (makes.getD i default).Name = name := by
  induction makes generalizing i with
  | nil => simp [findMakeIdx] at h
  | cons m ms ih =>
    by_cases hm : m.Name = name
    · simp only [findMakeIdx, if_pos hm, Option.some.injEq] at h
      subst h
      exact ⟨by simp, hm⟩
    · simp only [findMakeIdx, if_neg hm, Option.map_eq_some'] at h
      obtain ⟨j, hj, hji⟩ := h
      obtain ⟨hlt, hnm⟩ := ih j hj
      subst hji
      exact ⟨by simpa using hlt, hnm⟩

theorem findMakeIdx_none (makes : List Make) (name : String)
    (h : findMakeIdx makes name = none) : ∀ mk ∈ makes, mk.Name ≠ name := by
  induction makes with
  | nil => simp
  | cons m ms ih =>
    by_cases hm : m.Name = name
    · simp [findMakeIdx, hm] at h
    · simp only [findMakeIdx, if_neg hm, Option.map_eq_none'] at h
      intro mk hmk
      rcases List.mem_cons.mp hmk with rfl | hmem
      · exact hm
      · exact ih h mk hmem

theorem findMakeIdx_append_one (makes : List Make) (name : String) (mk : Make)
    (h : findMakeIdx makes name = none) (hmk : mk.Name = name) :
    findMakeIdx (makes ++ [mk]) name = some makes.length := by
  induction makes with
  | nil => simp [findMakeIdx, hmk]
  | cons m ms ih =>
    by_cases hm : m.Name = name
    · simp [findMakeIdx, hm] at h
    · simp only [findMakeIdx, if_neg hm, Option.map_eq_none'] at h
      simp only [List.cons_append, findMakeIdx, if_neg hm]
      rw [show List.append ms [mk] = ms ++ [mk] from rfl, ih h]
      simp

theorem lastModelIdx_some (models : List Model) (name : String) (j : Nat)
    (h : lastModelIdx models name = some j) :
    j < models.length ∧ (models.getD j default).Name = name := by
  induction models generalizing j with
  | nil => simp [lastModelIdx] at h
  | cons m ms ih =>
    simp only [lastModelIdx] at h
    cases hms : lastModelIdx ms name with
    | some j' =>
      rw [hms] at h
      simp only [Option.some.injEq] at h
      subst h
      obtain ⟨hlt, hnm⟩ := ih j' hms
      exact ⟨by simpa using hlt, hnm⟩
    | none =>
      rw [hms] at h
      by_cases hm : m.Name = name
      · rw [if_pos hm] at h
        simp only [Option.some.injEq] at h
        subst h
        exact ⟨by simp, hm⟩
      · rw [if_neg hm] at h
        simp at h

theorem getD_eq_of_getLast? (l : List α) (w d : α) (h : l.getLast? = some w) :
    l.getD (l.length - 1) d = w := by
  induction l with
  | nil => simp at h
  | cons x xs ih =>
    cases xs with
    | nil => simp at h; simpa using h
    | cons y ys =>
      rw [List.getLast?_cons_cons] at h
      have hlen : (x :: y :: ys).length - 1 = ((y :: ys).length - 1) + 1 := by simp
      rw [hlen, List.getD_cons_succ]
      exact ih h

/-! ## Preservation of the graph invariant -/

theorem updLast_field_eq {β : Type} (l : List Work) (f : Work → Work) (g : Work → β)
    (hf : ∀ w, g (f w) = g w) (i : Nat) :
    g ((updLast l f).getD i default) = g (l.getD i default) := by
  by_cases h1 : i + 1 < l.length
  · rw [getD_updLast_of_lt _ _ _ _ h1]
  · by_cases h2 : i < l.length
    · have h3 : i = l.length - 1 := by omega
      have hne : l ≠ [] := by
        intro hc
        rw [hc] at h2
        simp at h2
      rw [h3, getD_updLast_last _ _ _ hne, hf]
    · rw [getD_updLast_of_ge _ _ _ _ (by omega), List.getD_eq_default _ _ (by omega)]

/-- Any state rebuild that keeps the four graph-relevant fields keeps the
graph invariant. -/
theorem GraphInv.of_eq {s s' : PState} {cl : Nat → Bool} (hg : GraphInv s cl)
    (h1 : s'.newWorkOpen = s.newWorkOpen) (h2 : s'.works = s.works)
    (h3 : s'.makes = s.makes) (h4 : s'.worksSM = s.worksSM) :
    GraphInv s' cl := by
  refine ⟨?_, ?_, ?_, ?_, ?_, ?_, ?_, ?_, ?_⟩
  · rw [h1, h2]; exact hg.open_ne
  · rw [h1, h2]; exact hg.open_cl
  · rw [h2]; exact hg.cl_bound
  · rw [h2, h3]; exact hg.make_count
  · rw [h2, h3]; exact hg.model_count
  · rw [h2, h4]; exact hg.sm_count
  · rw [h2, h3]; exact hg.wmake_lt
  · rw [h2, h3]; exact hg.wmodel_lt
  · rw [h2]; exact hg.model_make

/-- Updating the last work without touching `WMake`/`WModel` (the id, filename
and URI assignments) keeps the graph invariant. -/
theorem GraphInv.updLast_plain {s : PState} {cl : Nat → Bool} (hg : GraphInv s cl)
    (f : Work → Work) (hMake : ∀ w, (f w).WMake = w.WMake)
    (hModel : ∀ w, (f w).WModel = w.WModel) :
    GraphInv { s with works := updLast s.works f } cl := by
  have hWMake : ∀ i, ((updLast s.works f).getD i default).WMake
      = ((s.works.getD i default)).WMake := fun i =>
    updLast_field_eq s.works f Work.WMake hMake i
  have hWModel : ∀ i, ((updLast s.works f).getD i default).WModel
      = ((s.works.getD i default)).WModel := fun i =>
    updLast_field_eq s.works f Work.WModel hModel i
  have hlen : (updLast s.works f).length = s.works.length := length_updLast _ _
  refine ⟨?_, ?_, ?_, ?_, ?_, ?_, ?_, ?_, ?_⟩
  · intro h
    intro hc
    have hc2 : updLast s.works f = [] := hc
    have hz : s.works.length = 0 := by rw [← hlen, hc2]; rfl
    exact hg.open_ne h (List.length_eq_zero.mp hz)
  · intro h
    simpa [hlen] using hg.open_cl h
  · intro k hk
    exact hg.cl_bound k (by simpa [hlen] using hk)
  · intro i m
    rw [show ({ s with works := updLast s.works f } : PState).makes = s.makes from rfl]
    rw [hg.make_count i m]
    simp only [hWMake, hWModel]
  · intro i m j
    rw [hg.model_count i m j]
    simp only [hWModel]
  · intro i
    rw [hg.sm_count i]
    simp only [hWMake]
  · intro i m hi hm
    rw [hWMake] at hm
    exact hg.wmake_lt i m (by simpa [hlen] using hi) hm
  · intro i m j hi hm
    rw [hWModel] at hm
    exact hg.wmodel_lt i m j (by simpa [hlen] using hi) hm
  · intro i hi
    rw [hWModel] at hi
    rw [hWMake]
    exact hg.model_make i hi

/-- Opening a new work (`<work>` start tag) keeps the graph invariant with the
same flag: the fresh work is unfinalized and carries no references. -/
theorem GraphInv.append_work {s : PState} {cl : Nat → Bool} (hg : GraphInv s cl)
    (st' : List String) :
    GraphInv { s with stack := st', works := s.works ++ [createWork], newWorkOpen := true } cl := by
  have hget : ∀ i, ((s.works ++ [createWork]).getD i default)
      = if i < s.works.length then s.works.getD i default
        else if i = s.works.length then createWork else default := by
    intro i
    by_cases h1 : i < s.works.length
    · rw [List.getD_append _ _ _ _ h1, if_pos h1]
    · rw [if_neg h1]
      by_cases h2 : i = s.works.length
      · subst h2
        rw [List.getD_append_right _ _ _ _ (le_refl _), if_pos rfl]
        simp
      · rw [if_neg h2]
        apply List.getD_eq_default
        simp only [List.length_append, List.length_singleton]
        omega
  have hcl : ∀ i, ¬ i < s.works.length → cl i = false := fun i hi =>
    hg.cl_bound i (by omega)
  refine ⟨?_, ?_, ?_, ?_, ?_, ?_, ?_, ?_, ?_⟩
  · intro _
    simp
  · intro _
    simp only [List.length_append, List.length_singleton]
    exact hg.cl_bound _ (by omega)
  · intro k hk
    simp only [List.length_append, List.length_singleton] at hk
    exact hg.cl_bound k (by omega)
  · intro i m
    rw [hg.make_count i m, hget i]
    by_cases h1 : i < s.works.length
    · simp [h1]
    · simp [h1, hcl i h1]
  · intro i m j
    rw [hg.model_count i m j, hget i]
    by_cases h1 : i < s.works.length
    · simp [h1]
    · simp [h1, hcl i h1]
  · intro i
    rw [hg.sm_count i, hget i]
    by_cases h1 : i < s.works.length
    · simp [h1]
    · simp [h1, hcl i h1]
  · intro i m hi hm
    rw [hget i] at hm
    by_cases h1 : i < s.works.length
    · rw [if_pos h1] at hm
      exact hg.wmake_lt i m h1 hm
    · rw [if_neg h1] at hm
      by_cases h2 : i = s.works.length
      · rw [if_pos h2] at hm
        simp [createWork] at hm
      · rw [if_neg h2] at hm
        simp [default] at hm
  · intro i m j hi hm
    rw [hget i] at hm
    by_cases h1 : i < s.works.length
    · rw [if_pos h1] at hm
      exact hg.wmodel_lt i m j h1 hm
    · rw [if_neg h1] at hm
      by_cases h2 : i = s.works.length
      · rw [if_pos h2] at hm
        simp [createWork] at hm
      · rw [if_neg h2] at hm
        simp [default] at hm
  · intro i hi
    rw [hget i] at hi ⊢
    by_cases h1 : i < s.works.length
    · rw [if_pos h1] at hi ⊢
      exact hg.model_make i hi
    · rw [if_neg h1] at hi ⊢
      by_cases h2 : i = s.works.length
      · rw [if_pos h2] at hi
        simp [createWork] at hi
      · rw [if_neg h2] at hi
        simp [default] at hi

theorem internMake_cases (makes : List Make) (name : String) :
    ((internMake makes name).2 = makes ∧ (internMake makes name).1 < makes.length)
    ∨ (findMakeIdx makes name = none ∧ (internMake makes name).2 = makes ++ [createMake name]
        ∧ (internMake makes name).1 = makes.length) := by
  unfold internMake
  cases h : findMakeIdx makes name with
  | some i =>
    left
    exact ⟨rfl, (findMakeIdx_some _ _ _ h).1⟩
  | none =>
    right
    exact ⟨rfl, rfl, rfl⟩

/-- Appending a fresh make (no linked models or works) keeps the graph
invariant. -/
theorem GraphInv.makes_append {s : PState} {cl : Nat → Bool} (hg : GraphInv s cl)
    (mk : Make) (hW : mk.Works = []) (hM : mk.Models = []) :
    GraphInv { s with makes := s.makes ++ [mk] } cl := by
  have hget : ∀ m, ((s.makes ++ [mk]).getD m default)
      = if m < s.makes.length then s.makes.getD m default
        else if m = s.makes.length then mk else default := by
    intro m
    by_cases h1 : m < s.makes.length
    · rw [List.getD_append _ _ _ _ h1, if_pos h1]
    · rw [if_neg h1]
      by_cases h2 : m = s.makes.length
      · subst h2
        rw [List.getD_append_right _ _ _ _ (le_refl _), if_pos rfl]
        simp
      · rw [if_neg h2]
        apply List.getD_eq_default
        simp only [List.length_append, List.length_singleton]
        omega
  have hclosed_lt : ∀ i, cl i = true → i < s.works.length := by
    intro i hi
    by_contra hc
    rw [hg.cl_bound i (by omega)] at hi
    cases hi
  refine ⟨hg.open_ne, hg.open_cl, hg.cl_bound, ?_, ?_, hg.sm_count, ?_, ?_, hg.model_make⟩
  · intro i m
    rw [hget m]
    by_cases h1 : m < s.makes.length
    · rw [if_pos h1]
      exact hg.make_count i m
    · rw [if_neg h1]
      have hcond : ¬ (cl i = true ∧ (s.works.getD i default).WMake = some m
          ∧ ((s.works.getD i default).WModel).isSome = true) := by
        rintro ⟨hcl, hmk, _⟩
        exact h1 (hg.wmake_lt i m (hclosed_lt i hcl) hmk)
      rw [if_neg hcond]
      by_cases h2 : m = s.makes.length
      · rw [if_pos h2, hW]
        rfl
      · rw [if_neg h2]
        rfl
  · intro i m j
    rw [hget m]
    by_cases h1 : m < s.makes.length
    · rw [if_pos h1]
      exact hg.model_count i m j
    · rw [if_neg h1]
      have hcond : ¬ (cl i = true ∧ (s.works.getD i default).WModel = some (m, j)) := by
        rintro ⟨hcl, hmd⟩
        exact h1 (hg.wmodel_lt i m j (hclosed_lt i hcl) hmd).1
      rw [if_neg hcond]
      by_cases h2 : m = s.makes.length
      · rw [if_pos h2, hM]
        simp [default]
      · rw [if_neg h2]
        simp [default]
  · intro i m hi hm
    have := hg.wmake_lt i m hi hm
    simp only [List.length_append, List.length_singleton]
    omega
  · intro i m j hi hm
    obtain ⟨h1, h2⟩ := hg.wmodel_lt i m j hi hm
    refine ⟨by simp only [List.length_append, List.length_singleton]; omega, ?_⟩
    rw [hget m, if_pos h1]
    exact h2

/-- Appending a fresh model (no linked works) to an existing make keeps the
graph invariant. -/
theorem GraphInv.models_append {s : PState} {cl : Nat → Bool} (hg : GraphInv s cl)
    (wm : Nat) (md : Model) (hW : md.Works = []) (hwm : wm < s.makes.length) :
    GraphInv { s with
      makes := updIdx s.makes wm (fun mk => { mk with Models := mk.Models ++ [md] }) } cl := by
  have hclosed_lt : ∀ i, cl i = true → i < s.works.length := by
    intro i hi
    by_contra hc
    rw [hg.cl_bound i (by omega)] at hi
    cases hi
  have hlen : (updIdx s.makes wm (fun mk => { mk with Models := mk.Models ++ [md] })).length
      = s.makes.length := length_updIdx _ _ _
  have hWorks : ∀ m, ((updIdx s.makes wm
      (fun mk => { mk with Models := mk.Models ++ [md] })).getD m default).Works
      = (s.makes.getD m default).Works := by
    intro m
    by_cases h1 : m = wm
    · subst h1
      rw [getD_updIdx_self _ _ _ _ hwm]
    · rw [getD_updIdx_ne _ _ _ _ _ h1]
  have hModels : ∀ m, ((updIdx s.makes wm
      (fun mk => { mk with Models := mk.Models ++ [md] })).getD m default).Models
      = if m = wm then (s.makes.getD m default).Models ++ [md]
        else (s.makes.getD m default).Models := by
    intro m
    by_cases h1 : m = wm
    · subst h1
      rw [getD_updIdx_self _ _ _ _ hwm, if_pos rfl]
    · rw [getD_updIdx_ne _ _ _ _ _ h1, if_neg h1]
  refine ⟨hg.open_ne, hg.open_cl, hg.cl_bound, ?_, ?_, hg.sm_count, ?_, ?_, hg.model_make⟩
  · intro i m
    rw [hWorks m]
    exact hg.make_count i m
  · intro i m j
    rw [hModels m]
    by_cases h1 : m = wm
    · rw [if_pos h1]
      subst h1
      by_cases h2 : j < ((s.makes.getD m default).Models).length
      · rw [List.getD_append _ _ _ _ h2]
        exact hg.model_count i m j
      · have hcond : ¬ (cl i = true ∧ (s.works.getD i default).WModel = some (m, j)) := by
          rintro ⟨hcl, hmd⟩
          exact h2 (hg.wmodel_lt i m j (hclosed_lt i hcl) hmd).2
        rw [if_neg hcond]
        by_cases h3 : j = ((s.makes.getD m default).Models).length
        · subst h3
          rw [List.getD_append_right _ _ _ _ (le_refl _)]
          simpa using congrArg (fun l => l.count i) hW
        · rw [List.getD_eq_default]
          · simp [default]
          · simp only [List.length_append, List.length_singleton]
            omega
    · rw [if_neg h1]
      exact hg.model_count i m j
  · intro i m hi hm
    rw [hlen]
    exact hg.wmake_lt i m hi hm
  · intro i m j hi hm
    obtain ⟨h1, h2⟩ := hg.wmodel_lt i m j hi hm
    refine ⟨by rw [hlen]; exact h1, ?_⟩
    rw [hModels m]
    by_cases h3 : m = wm
    · rw [if_pos h3]
      simp only [List.length_append, List.length_singleton]
      omega
    · rw [if_neg h3]
      exact h2

/-- Updating the fields of the still-open last work keeps the graph invariant,
provided the new reference fields stay in range. -/
theorem GraphInv.updLast_open {s : PState} {cl : Nat → Bool} (hg : GraphInv s cl)
    (hOpen : s.newWorkOpen = true) (f : Work → Work)
    (hv1 : ∀ m, (f (s.works.getD (s.works.length - 1) default)).WMake = some m →
      m < s.makes.length)
    (hv2 : ∀ m j, (f (s.works.getD (s.works.length - 1) default)).WModel = some (m, j) →
      m < s.makes.length ∧ j < ((s.makes.getD m default).Models).length)
    (hv3 : ((f (s.works.getD (s.works.length - 1) default)).WModel).isSome = true →
      ((f (s.works.getD (s.works.length - 1) default)).WMake).isSome = true) :
    GraphInv { s with works := updLast s.works f } cl := by
  have hne : s.works ≠ [] := hg.open_ne hOpen
  have hpos : 0 < s.works.length := List.length_pos.mpr hne
  have hlen : (updLast s.works f).length = s.works.length := length_updLast _ _
  have hget : ∀ i, (updLast s.works f).getD i default
      = if i + 1 < s.works.length then s.works.getD i default
        else if i = s.works.length - 1 then f (s.works.getD i default)
        else default := by
    intro i
    by_cases h1 : i + 1 < s.works.length
    · rw [if_pos h1, getD_updLast_of_lt _ _ _ _ h1]
    · rw [if_neg h1]
      by_cases h2 : i = s.works.length - 1
      · rw [if_pos h2, h2, getD_updLast_last _ _ _ hne]
      · rw [if_neg h2, getD_updLast_of_ge _ _ _ _ (by omega)]
  have hclLast : cl (s.works.length - 1) = false := hg.open_cl hOpen
  -- either the entry is unchanged, or it is unfinalized (so all counts are 0)
  have hsplit : ∀ i, ((updLast s.works f).getD i default = s.works.getD i default)
      ∨ (cl i = false ∧ i = s.works.length - 1) := by
    intro i
    rw [hget i]
    by_cases h1 : i + 1 < s.works.length
    · left; rw [if_pos h1]
    · by_cases h2 : i = s.works.length - 1
      · right; exact ⟨h2 ▸ hclLast, h2⟩
      · left
        rw [if_neg h1, if_neg h2]
        rw [List.getD_eq_default]
        omega
  refine ⟨?_, ?_, ?_, ?_, ?_, ?_, ?_, ?_, ?_⟩
  · intro _
    intro hc
    have hc2 : updLast s.works f = [] := hc
    have hz : s.works.length = 0 := by rw [← hlen, hc2]; rfl
    omega
  · intro _
    rw [show ({ s with works := updLast s.works f } : PState).works = updLast s.works f from rfl,
      hlen]
    exact hclLast
  · intro k hk
    rw [show ({ s with works := updLast s.works f } : PState).works = updLast s.works f from rfl,
      hlen] at hk
    exact hg.cl_bound k hk
  · intro i m
    rcases hsplit i with heq | ⟨hcl, _⟩
    · rw [show ({ s with works := updLast s.works f } : PState).works = updLast s.works f from rfl,
        heq]
      exact hg.make_count i m
    · rw [hg.make_count i m]
      simp [hcl]
  · intro i m j
    rcases hsplit i with heq | ⟨hcl, _⟩
    · rw [show ({ s with works := updLast s.works f } : PState).works = updLast s.works f from rfl,
        heq]
      exact hg.model_count i m j
    · rw [hg.model_count i m j]
      simp [hcl]
  · intro i
    rcases hsplit i with heq | ⟨hcl, _⟩
    · rw [show ({ s with works := updLast s.works f } : PState).works = updLast s.works f from rfl,
        heq]
      exact hg.sm_count i
    · rw [hg.sm_count i]
      simp [hcl]
  · intro i m hi hm
    rw [show ({ s with works := updLast s.works f } : PState).works = updLast s.works f from rfl,
      hget i] at hm
    rw [hlen] at hi
    by_cases h1 : i + 1 < s.works.length
    · rw [if_pos h1] at hm
      exact hg.wmake_lt i m hi hm
    · by_cases h2 : i = s.works.length - 1
      · rw [if_neg h1, if_pos h2] at hm
        subst h2
        exact hv1 m hm
      · omega
  · intro i m j hi hm
    rw [show ({ s with works := updLast s.works f } : PState).works = updLast s.works f from rfl,
      hget i] at hm
    rw [hlen] at hi
    by_cases h1 : i + 1 < s.works.length
    · rw [if_pos h1] at hm
      exact hg.wmodel_lt i m j hi hm
    · by_cases h2 : i = s.works.length - 1
      · rw [if_neg h1, if_pos h2] at hm
        subst h2
        exact hv2 m j hm
      · omega
  · intro i hi
    rw [show ({ s with works := updLast s.works f } : PState).works = updLast s.works f from rfl,
      hget i] at hi ⊢
    by_cases h1 : i + 1 < s.works.length
    · rw [if_pos h1] at hi ⊢
      exact hg.model_make i hi
    · by_cases h2 : i = s.works.length - 1
      · rw [if_neg h1, if_pos h2] at hi ⊢
        subst h2
        exact hv3 hi
      · rw [if_neg h1, if_neg h2] at hi
        simp [default] at hi

/-- Finalizing a make-less work: it goes to `worksSM` only. -/
theorem ginv_final_nomake {s : PState} {cl : Nat → Bool} (hg : GraphInv s cl)
    (hOpen : s.newWorkOpen = true)
    (hWM : (s.works.getD (s.works.length - 1) default).WMake = none) :
    GraphInv { s with
      worksSM := s.worksSM ++ [s.works.length - 1],
      newWorkOpen := false,
      newModelDetected := false,
      newModel := "" } (clUpd cl (s.works.length - 1)) := by
  have hne : s.works ≠ [] := hg.open_ne hOpen
  have hpos : 0 < s.works.length := List.length_pos.mpr hne
  have hcl : cl (s.works.length - 1) = false := hg.open_cl hOpen
  have hWMo : (s.works.getD (s.works.length - 1) default).WModel = none := by
    cases hx : (s.works.getD (s.works.length - 1) default).WModel with
    | none => rfl
    | some p =>
      have := hg.model_make (s.works.length - 1) (by rw [hx]; rfl)
      rw [hWM] at this
      cases this
  have hclUpd : ∀ k, k ≠ s.works.length - 1 → clUpd cl (s.works.length - 1) k = cl k := by
    intro k hk
    simp only [clUpd]
    rw [if_neg hk]
  refine ⟨?_, ?_, ?_, ?_, ?_, ?_, ?_, ?_, ?_⟩
  · intro hc
    simp at hc
  · intro hc
    simp at hc
  · intro k hk
    have hk2 : s.works.length ≤ k := hk
    rw [hclUpd k (by omega)]
    exact hg.cl_bound k hk2
  · intro i0 m
    show ((s.makes.getD m default).Works).count i0
        = if clUpd cl (s.works.length - 1) i0 = true ∧ (s.works.getD i0 default).WMake = some m
             ∧ ((s.works.getD i0 default).WModel).isSome = true then 1 else 0
    rw [hg.make_count i0 m]
    by_cases hi0 : i0 = s.works.length - 1
    · subst hi0
      rw [hcl, hWM]
      simp [clUpd]
    · rw [hclUpd i0 hi0]
  · intro i0 m j
    show (((s.makes.getD m default).Models.getD j default).Works).count i0
        = if clUpd cl (s.works.length - 1) i0 = true
             ∧ (s.works.getD i0 default).WModel = some (m, j) then 1 else 0
    rw [hg.model_count i0 m j]
    by_cases hi0 : i0 = s.works.length - 1
    · subst hi0
      rw [hcl, hWMo]
      simp [clUpd]
    · rw [hclUpd i0 hi0]
  · intro i0
    show List.count i0 (s.worksSM ++ [s.works.length - 1])
        = if clUpd cl (s.works.length - 1) i0 = true ∧ (s.works.getD i0 default).WMake = none
          then 1 else 0
    rw [List.count_append, hg.sm_count i0]
    by_cases hi0 : i0 = s.works.length - 1
    · subst hi0
      rw [hcl, hWM]
      simp [clUpd]
    · rw [hclUpd i0 hi0]
      have hc0 : List.count i0 [s.works.length - 1] = 0 := by
        simp [List.count_singleton']
        omega
      rw [hc0]
      omega
  · exact hg.wmake_lt
  · exact hg.wmodel_lt
  · exact hg.model_make

theorem getD_updIdx (l : List α) (i : Nat) (f : α → α) (j : Nat) (d : α) (hi : i < l.length) :
    (updIdx l i f).getD j d = if j = i then f (l.getD j d) else l.getD j d := by
  by_cases h : j = i
  · subst h
    rw [getD_updIdx_self _ _ _ _ hi, if_pos rfl]
  · rw [getD_updIdx_ne _ _ _ _ _ h, if_neg h]

/-- Finalizing a work with both make and model: the work index is appended to
the make's and the model's `Works` lists.  Stated generically over the new
registry `makes2`, characterized by its projections. -/
theorem ginv_final_linked_gen {s : PState} {cl : Nat → Bool} (hg : GraphInv s cl)
    (hOpen : s.newWorkOpen = true) {mi mj j : Nat}
    (hWM : (s.works.getD (s.works.length - 1) default).WMake = some mi)
    (hWMo : (s.works.getD (s.works.length - 1) default).WModel = some (mj, j))
    (makes2 : List Make)
    (hWorks : ∀ m, ((makes2.getD m default)).Works
      = if m = mi then (s.makes.getD m default).Works ++ [s.works.length - 1]
        else (s.makes.getD m default).Works)
    (hMdW : ∀ m j0, ((makes2.getD m default).Models.getD j0 default).Works
      = if m = mj ∧ j0 = j
        then ((s.makes.getD m default).Models.getD j0 default).Works ++ [s.works.length - 1]
        else ((s.makes.getD m default).Models.getD j0 default).Works)
    (hMdLen : ∀ m, ((makes2.getD m default).Models).length
      = ((s.makes.getD m default).Models).length)
    (hLen2 : makes2.length = s.makes.length) :
    GraphInv { s with
      makes := makes2,
      newWorkOpen := false,
      newModelDetected := false,
      newModel := "" } (clUpd cl (s.works.length - 1)) := by
  have hne : s.works ≠ [] := hg.open_ne hOpen
  have hpos : 0 < s.works.length := List.length_pos.mpr hne
  have hcl : cl (s.works.length - 1) = false := hg.open_cl hOpen
  have hclUpd : ∀ k, k ≠ s.works.length - 1 → clUpd cl (s.works.length - 1) k = cl k := by
    intro k hk
    simp only [clUpd]
    rw [if_neg hk]
  refine ⟨?_, ?_, ?_, ?_, ?_, ?_, ?_, ?_, ?_⟩
  · intro hc
    simp at hc
  · intro hc
    simp at hc
  · intro k hk
    have hk2 : s.works.length ≤ k := hk
    rw [hclUpd k (by omega)]
    exact hg.cl_bound k hk2
  · intro i0 m
    dsimp only
    rw [hWorks m]
    by_cases hm : m = mi
    · subst hm
      rw [if_pos rfl, List.count_append, hg.make_count i0 m]
      by_cases hi0 : i0 = s.works.length - 1
      · subst hi0
        rw [hcl, hWM, hWMo]
        simp [clUpd]
      · have hc0 : List.count i0 [s.works.length - 1] = 0 := by
          simp [List.count_singleton']
          omega
        rw [hc0, hclUpd i0 hi0]
        omega
    · rw [if_neg hm, hg.make_count i0 m]
      by_cases hi0 : i0 = s.works.length - 1
      · subst hi0
        rw [hcl, hWM]
        simp [clUpd]
        rw [if_neg (fun hc => hm hc.1.symm)]
      · rw [hclUpd i0 hi0]
  · intro i0 m j0
    dsimp only
    rw [hMdW m j0]
    by_cases hmj0 : m = mj ∧ j0 = j
    · obtain ⟨hm, hj0⟩ := hmj0
      subst hm
      subst hj0
      rw [if_pos ⟨rfl, rfl⟩, List.count_append, hg.model_count i0 m j0]
      by_cases hi0 : i0 = s.works.length - 1
      · subst hi0
        rw [hcl, hWMo]
        simp [clUpd]
      · have hc0 : List.count i0 [s.works.length - 1] = 0 := by
          simp [List.count_singleton']
          omega
        rw [hc0, hclUpd i0 hi0]
        omega
    · rw [if_neg hmj0, hg.model_count i0 m j0]
      by_cases hi0 : i0 = s.works.length - 1
      · subst hi0
        rw [hcl, hWMo]
        simp [clUpd]
        rw [if_neg (fun hc => hmj0 ⟨hc.1.symm, hc.2.symm⟩)]
      · rw [hclUpd i0 hi0]
  · intro i0
    dsimp only
    rw [hg.sm_count i0]
    by_cases hi0 : i0 = s.works.length - 1
    · subst hi0
      rw [hcl, hWM]
      simp [clUpd]
    · rw [hclUpd i0 hi0]
  · intro i0 m hi hm
    dsimp only at hi hm ⊢
    rw [hLen2]
    exact hg.wmake_lt i0 m hi hm
  · intro i0 m j0 hi hm
    dsimp only at hi hm ⊢
    obtain ⟨h1, h2⟩ := hg.wmodel_lt i0 m j0 hi hm
    rw [hLen2, hMdLen m]
    exact ⟨h1, h2⟩
  · intro i0
    dsimp only
    exact hg.model_make i0

/-- The concrete instance of `ginv_final_linked_gen` for the double `updIdx`
update performed by the finalization code. -/
theorem ginv_final_linked {s : PState} {cl : Nat → Bool} (hg : GraphInv s cl)
    (hOpen : s.newWorkOpen = true) {mi mj j : Nat}
    (hWM : (s.works.getD (s.works.length - 1) default).WMake = some mi)
    (hWMo : (s.works.getD (s.works.length - 1) default).WModel = some (mj, j)) :
    GraphInv { s with
      makes := updIdx (updIdx s.makes mi (addWorkTo (s.works.length - 1))) mj (addModelWorkTo j (s.works.length - 1)),
      newWorkOpen := false,
      newModelDetected := false,
      newModel := "" } (clUpd cl (s.works.length - 1)) := by
  have hne : s.works ≠ [] := hg.open_ne hOpen
  have hpos : 0 < s.works.length := List.length_pos.mpr hne
  have hmi : mi < s.makes.length := hg.wmake_lt _ mi (by omega) hWM
  obtain ⟨hmj, hj⟩ := hg.wmodel_lt _ mj j (by omega) hWMo
  have hInner : ∀ m, ((updIdx s.makes mi (addWorkTo (s.works.length - 1))).getD m default)
      = if m = mi then addWorkTo (s.works.length - 1) (s.makes.getD m default)
        else s.makes.getD m default :=
    fun m => getD_updIdx _ _ _ _ _ hmi
  have hInnerLen : (updIdx s.makes mi (addWorkTo (s.works.length - 1))).length = s.makes.length :=
    length_updIdx _ _ _
  have hInnerW : ∀ m, ((updIdx s.makes mi (addWorkTo (s.works.length - 1))).getD m default).Works
      = if m = mi then (s.makes.getD m default).Works ++ [s.works.length - 1]
        else (s.makes.getD m default).Works := by
    intro m
    rw [hInner m]
    by_cases hm1 : m = mi
    · rw [if_pos hm1, if_pos hm1]
      rfl
    · rw [if_neg hm1, if_neg hm1]
  have hInnerM : ∀ m, ((updIdx s.makes mi (addWorkTo (s.works.length - 1))).getD m default).Models
      = (s.makes.getD m default).Models := by
    intro m
    rw [hInner m]
    by_cases hm1 : m = mi
    · rw [if_pos hm1]
      rfl
    · rw [if_neg hm1]
  have hOuter : ∀ m, ((updIdx (updIdx s.makes mi (addWorkTo (s.works.length - 1))) mj (addModelWorkTo j (s.works.length - 1))).getD m default)
      = if m = mj then addModelWorkTo j (s.works.length - 1) ((updIdx s.makes mi (addWorkTo (s.works.length - 1))).getD m default)
        else (updIdx s.makes mi (addWorkTo (s.works.length - 1))).getD m default :=
    fun m => getD_updIdx _ _ _ _ _ (by rw [hInnerLen]; exact hmj)
  have hOuterW : ∀ m, ((updIdx (updIdx s.makes mi (addWorkTo (s.works.length - 1))) mj (addModelWorkTo j (s.works.length - 1))).getD m default).Works
      = if m = mi then (s.makes.getD m default).Works ++ [s.works.length - 1]
        else (s.makes.getD m default).Works := by
    intro m
    rw [hOuter m]
    by_cases hm2 : m = mj
    · rw [if_pos hm2]
      rw [show (addModelWorkTo j (s.works.length - 1) ((updIdx s.makes mi (addWorkTo (s.works.length - 1))).getD m default)).Works = ((updIdx s.makes mi (addWorkTo (s.works.length - 1))).getD m default).Works from rfl]
      exact hInnerW m
    · rw [if_neg hm2]
      exact hInnerW m
  have hOuterM : ∀ m, ((updIdx (updIdx s.makes mi (addWorkTo (s.works.length - 1))) mj (addModelWorkTo j (s.works.length - 1))).getD m default).Models
      = if m = mj then updIdx ((s.makes.getD m default).Models) j (fun md => { md with Works := md.Works ++ [s.works.length - 1] })
        else (s.makes.getD m default).Models := by
    intro m
    rw [hOuter m]
    by_cases hm2 : m = mj
    · rw [if_pos hm2, if_pos hm2]
      rw [show (addModelWorkTo j (s.works.length - 1) ((updIdx s.makes mi (addWorkTo (s.works.length - 1))).getD m default)).Models = updIdx (((updIdx s.makes mi (addWorkTo (s.works.length - 1))).getD m default)).Models j (fun md => { md with Works := md.Works ++ [s.works.length - 1] }) from rfl]
      rw [hInnerM m]
    · rw [if_neg hm2, if_neg hm2]
      exact hInnerM m
  apply ginv_final_linked_gen hg hOpen hWM hWMo
  · exact hOuterW
  · intro m j0
    rw [hOuterM m]
    by_cases hm2 : m = mj
    · rw [if_pos hm2]
      subst hm2
      rw [getD_updIdx _ _ _ j0 _ hj]
      by_cases hjj : j0 = j
      · subst hjj
        rw [if_pos rfl, if_pos ⟨rfl, rfl⟩]
      · rw [if_neg hjj, if_neg (fun hc => hjj hc.2)]
    · rw [if_neg hm2, if_neg (fun hc => hm2 hc.1)]
  · intro m
    rw [hOuterM m]
    by_cases hm2 : m = mj
    · rw [if_pos hm2, length_updIdx]
    · rw [if_neg hm2]
  · rw [length_updIdx, hInnerLen]

/-- Finalizing a work with a make but no model: it is linked nowhere. -/
theorem ginv_final_makeonly {s : PState} {cl : Nat → Bool} (hg : GraphInv s cl)
    (hOpen : s.newWorkOpen = true) {mi : Nat}
    (hWM : (s.works.getD (s.works.length - 1) default).WMake = some mi)
    (hWMo : (s.works.getD (s.works.length - 1) default).WModel = none) :
    GraphInv { s with newWorkOpen := false, newModelDetected := false, newModel := "" }
      (clUpd cl (s.works.length - 1)) := by
  have hne : s.works ≠ [] := hg.open_ne hOpen
  have hpos : 0 < s.works.length := List.length_pos.mpr hne
  have hcl : cl (s.works.length - 1) = false := hg.open_cl hOpen
  have hclUpd : ∀ k, k ≠ s.works.length - 1 → clUpd cl (s.works.length - 1) k = cl k := by
    intro k hk
    simp only [clUpd]
    rw [if_neg hk]
  refine ⟨?_, ?_, ?_, ?_, ?_, ?_, ?_, ?_, ?_⟩
  · intro hc
    simp at hc
  · intro hc
    simp at hc
  · intro k hk
    have hk2 : s.works.length ≤ k := hk
    rw [hclUpd k (by omega)]
    exact hg.cl_bound k hk2
  · intro i0 m
    show ((s.makes.getD m default).Works).count i0
        = if clUpd cl (s.works.length - 1) i0 = true ∧ (s.works.getD i0 default).WMake = some m
             ∧ ((s.works.getD i0 default).WModel).isSome = true then 1 else 0
    rw [hg.make_count i0 m]
    by_cases hi0 : i0 = s.works.length - 1
    · subst hi0
      rw [hcl, hWMo]
      simp [clUpd]
    · rw [hclUpd i0 hi0]
  · intro i0 m j
    show (((s.makes.getD m default).Models.getD j default).Works).count i0
        = if clUpd cl (s.works.length - 1) i0 = true
             ∧ (s.works.getD i0 default).WModel = some (m, j) then 1 else 0
    rw [hg.model_count i0 m j]
    by_cases hi0 : i0 = s.works.length - 1
    · subst hi0
      rw [hcl, hWMo]
      simp [clUpd]
    · rw [hclUpd i0 hi0]
  · intro i0
    show List.count i0 s.worksSM
        = if clUpd cl (s.works.length - 1) i0 = true ∧ (s.works.getD i0 default).WMake = none
          then 1 else 0
    rw [hg.sm_count i0]
    by_cases hi0 : i0 = s.works.length - 1
    · subst hi0
      rw [hcl, hWM]
      simp [clUpd]
    · rw [hclUpd i0 hi0]
  · exact hg.wmake_lt
  · exact hg.wmodel_lt
  · exact hg.model_make

/-- Full behaviour of a successful `</work>` finalization: the graph invariant
is re-established with the last work marked finalized, `works` and the stack
are untouched, and one unfinalized work is discharged. -/
theorem finalizeWork_ok {s s' : PState} {cl : Nat → Bool} (hg : GraphInv s cl)
    (h : finalizeWork s = .ok s') :
    GraphInv s' (clUpd cl (s.works.length - 1))
    ∧ s'.works = s.works ∧ s'.stack = s.stack ∧ s'.newWorkOpen = false
    ∧ unclosedCount s'.works.length (clUpd cl (s.works.length - 1)) + 1
        = unclosedCount s.works.length cl := by
  unfold finalizeWork at h
  cases hO : s.newWorkOpen with
  | false =>
    rw [hO] at h
    simp at h
  | true =>
    rw [hO] at h
    cases hL : s.works.getLast? with
    | none =>
      rw [hL] at h
      simp at h
    | some w =>
      rw [hL] at h
      dsimp only at h
      have hw : s.works.getD (s.works.length - 1) default = w := getD_eq_of_getLast? _ _ _ hL
      have hne : s.works ≠ [] := hg.open_ne hO
      have hpos : 0 < s.works.length := List.length_pos.mpr hne
      have hcl : cl (s.works.length - 1) = false := hg.open_cl hO
      have hun : unclosedCount s.works.length (clUpd cl (s.works.length - 1)) + 1
          = unclosedCount s.works.length cl :=
        unclosedCount_update _ _ _ (by omega) hcl
      cases hWM : w.WMake with
      | none =>
        have hWMo : w.WModel = none := by
          cases hx : w.WModel with
          | none => rfl
          | some p =>
            have h3 := hg.model_make (s.works.length - 1)
            rw [hw, hx, hWM] at h3
            have h4 := h3 rfl
            cases h4
        rw [hWM, hWMo] at h
        have h2 : ({ s with
            worksSM := s.worksSM ++ [s.works.length - 1],
            newWorkOpen := false,
            newModelDetected := false,
            newModel := "" } : PState) = s' := Except.ok.inj h
        subst h2
        refine ⟨?_, rfl, rfl, rfl, hun⟩
        exact ginv_final_nomake hg hO (by rw [hw, hWM])
      | some mi =>
        cases hWMo : w.WModel with
        | none =>
          rw [hWM, hWMo] at h
          have h2 : ({ s with
              newWorkOpen := false,
              newModelDetected := false,
              newModel := "" } : PState) = s' := Except.ok.inj h
          subst h2
          refine ⟨?_, rfl, rfl, rfl, hun⟩
          exact ginv_final_makeonly hg hO (by rw [hw, hWM]) (by rw [hw, hWMo])
        | some mjp =>
          rw [hWM, hWMo] at h
          have h2 : ({ s with
              makes := updIdx (updIdx s.makes mi (addWorkTo (s.works.length - 1))) mjp.1 (addModelWorkTo mjp.2 (s.works.length - 1)),
              newWorkOpen := false,
              newModelDetected := false,
              newModel := "" } : PState) = s' := Except.ok.inj h
          subst h2
          refine ⟨?_, rfl, rfl, rfl, hun⟩
          have hWMo2 : (s.works.getD (s.works.length - 1) default).WModel
              = some (mjp.1, mjp.2) := by
            rw [hw, hWMo]
          exact ginv_final_linked hg hO (by rw [hw, hWM]) hWMo2


/-! ## Behaviour of the individual CharData blocks -/

theorem urlAttrOne_fields (st : PState) (v : String) :
    (urlAttrOne st v).stack = st.stack ∧ (urlAttrOne st v).works = st.works
    ∧ (urlAttrOne st v).makes = st.makes ∧ (urlAttrOne st v).worksSM = st.worksSM
    ∧ (urlAttrOne st v).newWorkOpen = st.newWorkOpen
    ∧ (urlAttrOne st v).newModelDetected = st.newModelDetected
    ∧ (urlAttrOne st v).newModel = st.newModel := by
  unfold urlAttrOne
  by_cases h1 : v = "small" <;> by_cases h2 : v = "medium" <;> by_cases h3 : v = "large" <;>
    simp [h1, h2, h3]

theorem applyUrlAttrs_fields (l : List String) (s : PState) :
    (applyUrlAttrs s l).stack = s.stack ∧ (applyUrlAttrs s l).works = s.works
    ∧ (applyUrlAttrs s l).makes = s.makes ∧ (applyUrlAttrs s l).worksSM = s.worksSM
    ∧ (applyUrlAttrs s l).newWorkOpen = s.newWorkOpen
    ∧ (applyUrlAttrs s l).newModelDetected = s.newModelDetected
    ∧ (applyUrlAttrs s l).newModel = s.newModel := by
  induction l generalizing s with
  | nil => exact ⟨rfl, rfl, rfl, rfl, rfl, rfl, rfl⟩
  | cons v vs ih =>
    have hstep : applyUrlAttrs s (v :: vs) = applyUrlAttrs (urlAttrOne s v) vs := rfl
    obtain ⟨o1, o2, o3, o4, o5, o6, o7⟩ := urlAttrOne_fields s v
    obtain ⟨i1, i2, i3, i4, i5, i6, i7⟩ := ih (urlAttrOne s v)
    rw [hstep]
    exact ⟨i1.trans o1, i2.trans o2, i3.trans o3, i4.trans o4, i5.trans o5,
      i6.trans o6, i7.trans o7⟩

theorem stepId_ok {s s' : PState} {cl : Nat → Bool} {d : String}
    (hg : GraphInv s cl) (h : stepId s d = .ok s') :
    GraphInv s' cl ∧ s'.works.length = s.works.length ∧ s'.stack = s.stack := by
  unfold stepId at h
  by_cases hHead : s.stack.head? = some "id"
  · rw [if_pos hHead] at h
    cases hA : atoi d with
    | none =>
      rw [hA] at h
      simp at h
    | some n =>
      rw [hA] at h
      dsimp only at h
      by_cases hOpen : s.newWorkOpen = true
      · rw [if_pos hOpen] at h
        have h2 := Except.ok.inj h
        subst h2
        exact ⟨hg.updLast_plain _ (fun w => rfl) (fun w => rfl), length_updLast _ _, rfl⟩
      · rw [if_neg hOpen] at h
        simp at h
  · rw [if_neg hHead] at h
    have h2 := Except.ok.inj h
    subst h2
    exact ⟨hg, rfl, rfl⟩

theorem stepFilename_ok {s s' : PState} {cl : Nat → Bool} {d : String}
    (hg : GraphInv s cl) (h : stepFilename s d = .ok s') :
    GraphInv s' cl ∧ s'.works.length = s.works.length ∧ s'.stack = s.stack := by
  unfold stepFilename at h
  by_cases hHead : s.stack.head? = some "filename"
  · rw [if_pos hHead] at h
    by_cases hOpen : s.newWorkOpen = true
    · rw [if_pos hOpen] at h
      have h2 := Except.ok.inj h
      subst h2
      exact ⟨hg.updLast_plain _ (fun w => rfl) (fun w => rfl), length_updLast _ _, rfl⟩
    · rw [if_neg hOpen] at h
      simp at h
  · rw [if_neg hHead] at h
    have h2 := Except.ok.inj h
    subst h2
    exact ⟨hg, rfl, rfl⟩

theorem stepModel_fields (s : PState) (d : String) :
    (stepModel s d).stack = s.stack ∧ (stepModel s d).works = s.works
    ∧ (stepModel s d).makes = s.makes ∧ (stepModel s d).worksSM = s.worksSM
    ∧ (stepModel s d).newWorkOpen = s.newWorkOpen := by
  unfold stepModel
  by_cases h : s.stack.head? = some "model" <;> simp [h]

theorem stepModel_ginv {s : PState} {cl : Nat → Bool} (hg : GraphInv s cl) (d : String) :
    GraphInv (stepModel s d) cl := by
  obtain ⟨h1, h2, h3, h4, h5⟩ := stepModel_fields s d
  exact hg.of_eq h5 h2 h3 h4

theorem uriBlockSmall_ok {s : PState} {cl : Nat → Bool} (hg : GraphInv s cl) (d : String) :
    GraphInv (uriBlockSmall s d) cl ∧ (uriBlockSmall s d).works.length = s.works.length
    ∧ (uriBlockSmall s d).stack = s.stack := by
  unfold uriBlockSmall
  by_cases h1 : s.thumbnailURI = true
  · rw [if_pos h1]
    by_cases h2 : s.works.length > 0
    · rw [if_pos h2]
      exact ⟨(hg.updLast_plain (fun w => { w with URISmall := d }) (fun w => rfl)
        (fun w => rfl)).of_eq rfl rfl rfl rfl, length_updLast _ _, rfl⟩
    · rw [if_neg h2]
      exact ⟨hg.of_eq rfl rfl rfl rfl, rfl, rfl⟩
  · rw [if_neg h1]
    exact ⟨hg, rfl, rfl⟩

theorem uriBlockMedium_ok {s : PState} {cl : Nat → Bool} (hg : GraphInv s cl) (d : String) :
    GraphInv (uriBlockMedium s d) cl ∧ (uriBlockMedium s d).works.length = s.works.length
    ∧ (uriBlockMedium s d).stack = s.stack := by
  unfold uriBlockMedium
  by_cases h1 : s.mediumURI = true
  · rw [if_pos h1]
    by_cases h2 : s.works.length > 0
    · rw [if_pos h2]
      exact ⟨(hg.updLast_plain (fun w => { w with URIMedium := d }) (fun w => rfl)
        (fun w => rfl)).of_eq rfl rfl rfl rfl, length_updLast _ _, rfl⟩
    · rw [if_neg h2]
      exact ⟨hg.of_eq rfl rfl rfl rfl, rfl, rfl⟩
  · rw [if_neg h1]
    exact ⟨hg, rfl, rfl⟩

theorem uriBlockLarge_ok {s : PState} {cl : Nat → Bool} (hg : GraphInv s cl) (d : String) :
    GraphInv (uriBlockLarge s d) cl ∧ (uriBlockLarge s d).works.length = s.works.length
    ∧ (uriBlockLarge s d).stack = s.stack := by
  unfold uriBlockLarge
  by_cases h1 : s.largeURI = true
  · rw [if_pos h1]
    by_cases h2 : s.works.length > 0
    · rw [if_pos h2]
      exact ⟨(hg.updLast_plain (fun w => { w with URILarge := d }) (fun w => rfl)
        (fun w => rfl)).of_eq rfl rfl rfl rfl, length_updLast _ _, rfl⟩
    · rw [if_neg h2]
      exact ⟨hg.of_eq rfl rfl rfl rfl, rfl, rfl⟩
  · rw [if_neg h1]
    exact ⟨hg, rfl, rfl⟩

theorem stepURI_ok {s : PState} {cl : Nat → Bool} (hg : GraphInv s cl) (d : String) :
    GraphInv (stepURI s d) cl ∧ (stepURI s d).works.length = s.works.length
    ∧ (stepURI s d).stack = s.stack := by
  obtain ⟨g1, l1, k1⟩ := uriBlockSmall_ok hg d
  obtain ⟨g2, l2, k2⟩ := uriBlockMedium_ok g1 d
  obtain ⟨g3, l3, k3⟩ := uriBlockLarge_ok g2 d
  exact ⟨g3, l3.trans (l2.trans l1), k3.trans (k2.trans k1)⟩

theorem stepMakeModelPending_ok {s1 s' : PState} {mi : Nat} {cl : Nat → Bool}
    (hg1 : GraphInv s1 cl) (hOpen : s1.newWorkOpen = true)
    (h : stepMakeModelPending s1 mi = .ok s') :
    GraphInv s' cl ∧ s'.works.length = s1.works.length ∧ s'.stack = s1.stack := by
  unfold stepMakeModelPending at h
  by_cases hMD : s1.newModelDetected = true
  · rw [if_pos hMD] at h
    cases hL : s1.works.getLast? with
    | none =>
      rw [hL] at h
      simp at h
    | some w =>
      rw [hL] at h
      dsimp only at h
      have hw : s1.works.getD (s1.works.length - 1) default = w := getD_eq_of_getLast? _ _ _ hL
      have hne : s1.works ≠ [] := hg1.open_ne hOpen
      have hpos : 0 < s1.works.length := List.length_pos.mpr hne
      cases hWM : w.WMake with
      | none =>
        rw [hWM] at h
        have h2 := Except.ok.inj h
        subst h2
        exact ⟨hg1.of_eq rfl rfl rfl rfl, rfl, rfl⟩
      | some wm =>
        rw [hWM] at h
        dsimp only at h
        have hwm : wm < s1.makes.length :=
          hg1.wmake_lt (s1.works.length - 1) wm (by omega) (by rw [hw, hWM])
        cases hFind : lastModelIdx ((s1.makes.getD wm default).Models)
            (if s1.newModel = "" then "(Generic model)" else s1.newModel) with
        | some j =>
          rw [hFind] at h
          obtain ⟨hjlt, -⟩ := lastModelIdx_some _ _ _ hFind
          have h2 := Except.ok.inj h
          subst h2
          refine ⟨?_, length_updLast _ _, rfl⟩
          refine ((hg1.updLast_open hOpen _ ?_ ?_ ?_).of_eq rfl rfl rfl rfl)
          · intro m hm
            have hm2 : (s1.works.getD (s1.works.length - 1) default).WMake = some m := hm
            rw [hw, hWM] at hm2
            obtain rfl := Option.some.inj hm2
            exact hwm
          · intro m j0 hm
            have hm2 : (some (wm, j) : Option (Nat × Nat)) = some (m, j0) := hm
            have hp := Option.some.inj hm2
            have hm3 : wm = m := congrArg Prod.fst hp
            have hj3 : j = j0 := congrArg Prod.snd hp
            subst hm3
            subst hj3
            exact ⟨hwm, hjlt⟩
          · intro _
            show (s1.works.getD (s1.works.length - 1) default).WMake.isSome = true
            rw [hw, hWM]
            rfl
        | none =>
          rw [hFind] at h
          dsimp only at h
          have h2 := Except.ok.inj h
          subst h2
          refine ⟨?_, length_updLast _ _, rfl⟩
          have hg2 := hg1.models_append wm
            (createModel (if s1.newModel = "" then "(Generic model)" else s1.newModel) mi)
            rfl hwm
          refine ((hg2.updLast_open hOpen _ ?_ ?_ ?_).of_eq rfl rfl rfl rfl)
          · intro m hm
            have hm2 : (s1.works.getD (s1.works.length - 1) default).WMake = some m := hm
            rw [hw, hWM] at hm2
            obtain rfl := Option.some.inj hm2
            rw [show (updIdx s1.makes wm (fun mk => { mk with Models := mk.Models ++ [createModel (if s1.newModel = "" then "(Generic model)" else s1.newModel) mi] })).length = s1.makes.length from length_updIdx _ _ _]
            exact hwm
          · intro m j0 hm
            have hm2 : (some (wm, (s1.makes.getD wm default).Models.length) : Option (Nat × Nat))
                = some (m, j0) := hm
            have hp := Option.some.inj hm2
            have hm3 : wm = m := congrArg Prod.fst hp
            have hj3 : (s1.makes.getD wm default).Models.length = j0 := congrArg Prod.snd hp
            subst hm3
            subst hj3
            constructor
            · rw [show (updIdx s1.makes wm (fun mk => { mk with Models := mk.Models ++ [createModel (if s1.newModel = "" then "(Generic model)" else s1.newModel) mi] })).length = s1.makes.length from length_updIdx _ _ _]
              exact hwm
            · rw [getD_updIdx_self _ _ _ _ hwm]
              simp
          · intro _
            show (s1.works.getD (s1.works.length - 1) default).WMake.isSome = true
            rw [hw, hWM]
            rfl
  · rw [if_neg hMD] at h
    have h2 := Except.ok.inj h
    subst h2
    exact ⟨hg1, rfl, rfl⟩

theorem stepMake_ok {s s' : PState} {cl : Nat → Bool} {d : String}
    (hg : GraphInv s cl) (h : stepMake s d = .ok s') :
    GraphInv s' cl ∧ s'.works.length = s.works.length ∧ s'.stack = s.stack := by
  unfold stepMake at h
  by_cases hHead : s.stack.head? = some "make"
  · rw [if_pos hHead] at h
    by_cases hOpen : s.newWorkOpen = true
    · rw [if_pos hOpen] at h
      dsimp only at h
      have hne : s.works ≠ [] := hg.open_ne hOpen
      have hpos : 0 < s.works.length := List.length_pos.mpr hne
      have hg1 : GraphInv { s with
          makes := (internMake s.makes (if d = "" then "(Generic make)" else d)).2,
          works := updLast s.works (fun w => { w with WMake := some (internMake s.makes (if d = "" then "(Generic make)" else d)).1 }) } cl := by
        rcases internMake_cases s.makes (if d = "" then "(Generic make)" else d) with
          ⟨hEq, hLt⟩ | ⟨hNone, hEq, hIdx⟩
        · refine ((hg.updLast_open hOpen _ ?_ ?_ ?_).of_eq rfl rfl ?_ rfl)
          · intro m hm
            have hm2 : (some (internMake s.makes (if d = "" then "(Generic make)" else d)).1 : Option Nat) = some m := hm
            obtain rfl := Option.some.inj hm2
            exact hLt
          · intro m j0 hm
            have hm2 : (s.works.getD (s.works.length - 1) default).WModel = some (m, j0) := hm
            exact hg.wmodel_lt _ m j0 (by omega) hm2
          · intro _
            rfl
          · exact hEq
        · have hgm := hg.makes_append
            (createMake (if d = "" then "(Generic make)" else d)) rfl rfl
          refine ((hgm.updLast_open hOpen _ ?_ ?_ ?_).of_eq rfl rfl ?_ rfl)
          · intro m hm
            have hm2 : (some (internMake s.makes (if d = "" then "(Generic make)" else d)).1 : Option Nat) = some m := hm
            obtain rfl := Option.some.inj hm2
            rw [hIdx]
            simp
          · intro m j0 hm
            have hm2 : (s.works.getD (s.works.length - 1) default).WModel = some (m, j0) := hm
            obtain ⟨hb1, hb2⟩ := hg.wmodel_lt _ m j0 (by omega) hm2
            constructor
            · simp only [List.length_append, List.length_singleton]
              omega
            · rw [List.getD_append _ _ _ _ hb1]
              exact hb2
          · intro _
            rfl
          · exact hEq
      obtain ⟨hgS, hlen, hstk⟩ := stepMakeModelPending_ok hg1 hOpen h
      refine ⟨hgS, ?_, hstk⟩
      rw [hlen]
      exact length_updLast _ _
    · rw [if_neg hOpen] at h
      simp at h
  · rw [if_neg hHead] at h
    have h2 := Except.ok.inj h
    subst h2
    exact ⟨hg, rfl, rfl⟩

theorem stepCharData_ok {s s' : PState} {cl : Nat → Bool} {d0 : String}
    (hg : GraphInv s cl) (h : step s (.charData d0) = .ok s') :
    GraphInv s' cl ∧ s'.works.length = s.works.length ∧ s'.stack = s.stack := by
  unfold step at h
  dsimp only at h
  cases h1 : stepId s (trimStr d0) with
  | error e =>
    rw [h1] at h
    simp [Except.bind] at h
  | ok s1 =>
    rw [h1] at h
    replace h : (stepFilename s1 (trimStr d0)).bind
        (fun s => (stepMake s (trimStr d0)).map fun s => stepURI (stepModel s (trimStr d0)) (trimStr d0))
        = .ok s' := h
    obtain ⟨g1, l1, k1⟩ := stepId_ok hg h1
    cases h2 : stepFilename s1 (trimStr d0) with
    | error e =>
      rw [h2] at h
      simp [Except.bind] at h
    | ok s2 =>
      rw [h2] at h
      replace h : (stepMake s2 (trimStr d0)).map
          (fun s => stepURI (stepModel s (trimStr d0)) (trimStr d0)) = .ok s' := h
      obtain ⟨g2, l2, k2⟩ := stepFilename_ok g1 h2
      cases h3 : stepMake s2 (trimStr d0) with
      | error e =>
        rw [h3] at h
        simp [Except.map] at h
      | ok s3 =>
        rw [h3] at h
        replace h : Except.ok (stepURI (stepModel s3 (trimStr d0)) (trimStr d0)) = .ok s' := h
        have h4 := Except.ok.inj h
        subst h4
        obtain ⟨g3, l3, k3⟩ := stepMake_ok g2 h3
        obtain ⟨m1, m2, m3, m4, m5⟩ := stepModel_fields s3 (trimStr d0)
        have g4 : GraphInv (stepModel s3 (trimStr d0)) cl := stepModel_ginv g3 (trimStr d0)
        obtain ⟨g5, l5, k5⟩ := stepURI_ok g4 (trimStr d0)
        refine ⟨g5, ?_, ?_⟩
        · rw [l5, m2, l3, l2, l1]
        · rw [k5, m1, k3, k2, k1]

/-! ## The invariant along a whole run -/

theorem initState_Inv : Inv initState (fun _ => false) := by
  constructor
  · refine ⟨?_, ?_, ?_, ?_, ?_, ?_, ?_, ?_, ?_⟩
    · intro h
      simp [initState] at h
    · intro h
      simp [initState] at h
    · intro k _
      rfl
    · intro i m
      simp [initState, default]
    · intro i m j
      simp [initState, default]
    · intro i
      simp [initState, default]
    · intro i m hi
      simp [initState] at hi
    · intro i m j hi
      simp [initState] at hi
    · intro i hi
      simp [initState, default] at hi
  · simp [initState, unclosedCount]

theorem step_Inv {s s' : PState} {cl : Nat → Bool} {t : Token}
    (hInv : Inv s cl) (h : step s t = .ok s') : ∃ cl', Inv s' cl' := by
  obtain ⟨hg, hcnt⟩ := hInv
  cases t with
  | charData d0 =>
    obtain ⟨hg2, hlen, hstk⟩ := stepCharData_ok hg h
    refine ⟨cl, hg2, ?_⟩
    rw [hlen, hstk]
    exact hcnt
  | startEl name attrVals =>
    unfold step at h
    dsimp only at h
    by_cases hwk : name = "work"
    · subst hwk
      rw [if_pos rfl, if_neg (by decide)] at h
      have h2 := Except.ok.inj h
      subst h2
      refine ⟨cl, hg.append_work _, ?_⟩
      show unclosedCount (s.works ++ [createWork]).length cl
          ≤ (("work" :: s.stack).count "work")
      have e1 : ("work" :: s.stack).count "work" = s.stack.count "work" + 1 := by
        rw [List.count_cons]
        simp
      have e2 : unclosedCount (s.works ++ [createWork]).length cl
          = unclosedCount s.works.length cl + 1 := by
        rw [List.length_append, List.length_singleton, unclosedCount_succ,
          hg.cl_bound s.works.length (le_refl _)]
        simp
      rw [e1, e2]
      omega
    · rw [if_neg hwk] at h
      by_cases hurl : name = "url"
      · rw [if_pos hurl] at h
        have h2 := Except.ok.inj h
        subst h2
        obtain ⟨a1, a2, a3, a4, a5, a6, a7⟩ :=
          applyUrlAttrs_fields attrVals { s with stack := name :: s.stack }
        refine ⟨cl, hg.of_eq a5 a2 a3 a4, ?_⟩
        rw [a1, a2]
        show unclosedCount s.works.length cl ≤ ((name :: s.stack).count "work")
        have e1 : (name :: s.stack).count "work" = s.stack.count "work" := by
          rw [List.count_cons]
          simp [hwk]
        rw [e1]
        exact hcnt
      · rw [if_neg hurl] at h
        have h2 := Except.ok.inj h
        subst h2
        refine ⟨cl, hg.of_eq rfl rfl rfl rfl, ?_⟩
        show unclosedCount s.works.length cl ≤ ((name :: s.stack).count "work")
        have e1 : (name :: s.stack).count "work" = s.stack.count "work" := by
          rw [List.count_cons]
          simp [hwk]
        rw [e1]
        exact hcnt
  | endEl name =>
    unfold step at h
    dsimp only at h
    cases hstk : s.stack with
    | nil =>
      rw [hstk] at h
      simp at h
    | cons popped rest =>
      rw [hstk] at h
      dsimp only at h
      by_cases hpn : popped = name
      · rw [if_pos hpn] at h
        by_cases hw : popped = "work"
        · rw [if_pos hw] at h
          have hgr : GraphInv ({ s with stack := rest } : PState) cl :=
            hg.of_eq rfl rfl rfl rfl
          obtain ⟨hg2, hworks, hstack2, hopen, hcount⟩ := finalizeWork_ok hgr h
          refine ⟨clUpd cl (s.works.length - 1), hg2, ?_⟩
          have e1 : unclosedCount s'.works.length (clUpd cl (s.works.length - 1)) + 1
              = unclosedCount s.works.length cl := hcount
          have e2 : s.stack.count "work" = rest.count "work" + 1 := by
            rw [hstk, hw, List.count_cons]
            simp
          have e3 : s'.stack.count "work" = rest.count "work" := by
            rw [hstack2]
          omega
        · rw [if_neg hw] at h
          have h2 := Except.ok.inj h
          subst h2
          refine ⟨cl, hg.of_eq rfl rfl rfl rfl, ?_⟩
          show unclosedCount s.works.length cl ≤ (rest.count "work")
          have e2 : s.stack.count "work" = rest.count "work" := by
            rw [hstk, List.count_cons]
            simp [hw]
          omega
      · rw [if_neg hpn] at h
        simp at h

theorem parseSteps_Inv {ts : List Token} {s s' : PState} {cl : Nat → Bool}
    (hInv : Inv s cl) (h : parseSteps ts s = .ok s') : ∃ cl', Inv s' cl' := by
  induction ts generalizing s cl with
  | nil =>
    have h2 := Except.ok.inj h
    subst h2
    exact ⟨cl, hInv⟩
  | cons t ts ih =>
    unfold parseSteps at h
    cases h1 : step s t with
    | error e =>
      rw [h1] at h
      simp [Except.bind] at h
    | ok s1 =>
      rw [h1] at h
      replace h : parseSteps ts s1 = .ok s' := h
      obtain ⟨cl1, hInv1⟩ := step_Inv hInv h1
      exact ih hInv1 h

theorem unclosedCount_zero {n : Nat} {cl : Nat → Bool} (h : unclosedCount n cl = 0) :
    ∀ k, k < n → cl k = true := by
  intro k hk
  by_contra hc
  have hcf : cl k = false := by
    cases hck : cl k
    · rfl
    · exact absurd hck hc
  have hmem : k ∈ (List.range n).filter (fun k => cl k = false) := by
    rw [List.mem_filter]
    exact ⟨List.mem_range.mpr hk, by simp [hcf]⟩
  unfold unclosedCount at h
  rw [List.length_eq_zero] at h
  rw [h] at hmem
  cases hmem

/-- After a successful run whose final context stack is empty, the membership
counts of every `Works` list are fully determined by the reference fields of
the works. -/
theorem run_characterization (ts : List Token) (st : PState)
    (hrun : parseRun ts = .ok st) (hstack : st.stack = []) :
    (∀ i m, i < st.works.length → ((st.makes.getD m default).Works).count i
        = if (st.works.getD i default).WMake = some m
             ∧ ((st.works.getD i default).WModel).isSome = true then 1 else 0)
    ∧ (∀ i m j, i < st.works.length →
        (((st.makes.getD m default).Models.getD j default).Works).count i
        = if (st.works.getD i default).WModel = some (m, j) then 1 else 0)
    ∧ (∀ i, i < st.works.length → st.worksSM.count i
        = if (st.works.getD i default).WMake = none then 1 else 0) := by
  obtain ⟨cl, hg, hcnt⟩ := parseSteps_Inv initState_Inv hrun
  rw [hstack] at hcnt
  have hz : unclosedCount st.works.length cl = 0 := by
    have e0 : ([] : List String).count "work" = 0 := rfl
    omega
  have hcl := unclosedCount_zero hz
  refine ⟨?_, ?_, ?_⟩
  · intro i m hi
    have hx := hg.make_count i m
    rw [hcl i hi] at hx
    simpa using hx
  · intro i m j hi
    have hx := hg.model_count i m j
    rw [hcl i hi] at hx
    simpa using hx
  · intro i hi
    have hx := hg.sm_count i
    rw [hcl i hi] at hx
    simpa using hx

theorem run_out_of_range (ts : List Token) (st : PState)
    (hrun : parseRun ts = .ok st) :
    ∀ i, st.works.length ≤ i →
      st.worksSM.count i = 0
      ∧ (∀ m, ((st.makes.getD m default).Works).count i = 0)
      ∧ (∀ m j, (((st.makes.getD m default).Models.getD j default).Works).count i = 0) := by
  obtain ⟨cl, hg, hcnt⟩ := parseSteps_Inv initState_Inv hrun
  intro i hi
  have hcl : cl i = false := hg.cl_bound i hi
  refine ⟨?_, ?_, ?_⟩
  · rw [hg.sm_count i]
    simp [hcl]
  · intro m
    rw [hg.make_count i m]
    simp [hcl]
  · intro m j
    rw [hg.model_count i m j]
    simp [hcl]

/-! ## Claim C1 -/

/-- **C1, amended** (graph completeness): after the parse loop finishes on a
stream whose final context stack is empty (so every started work was
finalized), a Work appears in a make's `Works` list exactly once when both its
make reference equals that make and its model reference is non-null, and zero
times otherwise; a Work appears in a model's `Works` list exactly once iff its
model reference is that model; consequently a Work with a make but no model
appears in no `Works` list, and no Work appears in two different makes'
`Works` lists. -/
theorem graph_completeness (ts : List Token) (st : PState)
    (hrun : parseRun ts = .ok st) (hstack : st.stack = []) :
    (∀ i m, i < st.works.length → ((st.makes.getD m default).Works).count i
        = if (st.works.getD i default).WMake = some m
             ∧ ((st.works.getD i default).WModel).isSome = true then 1 else 0)
    ∧ (∀ i m j, i < st.works.length →
        (((st.makes.getD m default).Models.getD j default).Works).count i
        = if (st.works.getD i default).WModel = some (m, j) then 1 else 0)
    ∧ (∀ i m m', m ≠ m' →
        ¬(i ∈ (st.makes.getD m default).Works ∧ i ∈ (st.makes.getD m' default).Works)) := by
  obtain ⟨h1, h2, h3⟩ := run_characterization ts st hrun hstack
  refine ⟨h1, h2, ?_⟩
  intro i m m' hmm
  rintro ⟨hin1, hin2⟩
  by_cases hi : i < st.works.length
  · have c1 : ((st.makes.getD m default).Works).count i ≠ 0 := by
      intro hc
      exact List.count_eq_zero.mp hc hin1
    have c2 : ((st.makes.getD m' default).Works).count i ≠ 0 := by
      intro hc
      exact List.count_eq_zero.mp hc hin2
    have w1 : (st.works.getD i default).WMake = some m := by
      by_contra hc
      exact c1 (by rw [h1 i m hi, if_neg (fun hand => hc hand.1)])
    have w2 : (st.works.getD i default).WMake = some m' := by
      by_contra hc
      exact c2 (by rw [h1 i m' hi, if_neg (fun hand => hc hand.1)])
    rw [w1] at w2
    exact hmm (Option.some.inj w2)
  · obtain ⟨-, hmk, -⟩ := run_out_of_range ts st hrun i (by omega)
    exact List.count_eq_zero.mp (hmk m) hin1

/-- Witness for `graph_completeness` at the concrete feed `tsGraphDemo`: the
hypotheses hold by evaluation and the single work (index 0, make 0, model 0)
is counted exactly once in its make's `Works` list. -/
theorem graph_completeness_witness :
    parseRun tsGraphDemo = .ok stGraphDemo ∧ stGraphDemo.stack = []
    ∧ ((stGraphDemo.makes.getD 0 default).Works).count 0 = 1 := by
  refine ⟨by decide, by decide, ?_⟩
  have h := graph_completeness tsGraphDemo stGraphDemo (by decide) (by decide)
  have h2 := h.1 0 0 (by decide)
  rw [h2]
  decide

/-- **C1 counterexample**: on `tsMakeOnly` the run finishes cleanly, work 0
has a non-null make reference (make 0), yet it appears zero times in that
make's `Works` list — refuting the claim that every Work with a non-null make
appears exactly once in its make's `Works`. -/
theorem graph_completeness_cex :
    parseRun tsMakeOnly = .ok stMakeOnly ∧ stMakeOnly.stack = []
    ∧ stMakeOnly.works.length = 1
    ∧ (stMakeOnly.works.getD 0 default).WMake = some 0
    ∧ stMakeOnly.makes.length = 1
    ∧ ((stMakeOnly.makes.getD 0 default).Works).count 0 = 0 := by
  decide

/-! ## Claim C2 -/

/-- **C2, amended** (no-make partition): after the parse loop finishes on a
stream whose final context stack is empty, `worksSM` contains exactly the
works with a null make (once each), `worksSM` and every make's `Works` list
are disjoint, and a work belongs to their union iff it lacks a make or has
both make and model — so a finalized work with a make but no model lies in
neither, and the union need not be the full work list. -/
theorem nomake_partition (ts : List Token) (st : PState)
    (hrun : parseRun ts = .ok st) (hstack : st.stack = []) :
    (∀ i, i < st.works.length → st.worksSM.count i
        = if (st.works.getD i default).WMake = none then 1 else 0)
    ∧ (∀ i m, ¬(i ∈ st.worksSM ∧ i ∈ (st.makes.getD m default).Works))
    ∧ (∀ i, i < st.works.length →
        ((i ∈ st.worksSM ∨ ∃ m, i ∈ (st.makes.getD m default).Works)
          ↔ ((st.works.getD i default).WMake = none
             ∨ (((st.works.getD i default).WMake).isSome = true
                 ∧ ((st.works.getD i default).WModel).isSome = true)))) := by
  obtain ⟨h1, h2, h3⟩ := run_characterization ts st hrun hstack
  refine ⟨h3, ?_, ?_⟩
  · intro i m
    rintro ⟨hin1, hin2⟩
    by_cases hi : i < st.works.length
    · have c1 : st.worksSM.count i ≠ 0 := by
        intro hc
        exact List.count_eq_zero.mp hc hin1
      have c2 : ((st.makes.getD m default).Works).count i ≠ 0 := by
        intro hc
        exact List.count_eq_zero.mp hc hin2
      have w1 : (st.works.getD i default).WMake = none := by
        by_contra hc
        exact c1 (by rw [h3 i hi, if_neg hc])
      have w2 : (st.works.getD i default).WMake = some m := by
        by_contra hc
        exact c2 (by rw [h1 i m hi, if_neg (fun hand => hc hand.1)])
      rw [w1] at w2
      cases w2
    · obtain ⟨hsm, -, -⟩ := run_out_of_range ts st hrun i (by omega)
      exact List.count_eq_zero.mp hsm hin1
  · intro i hi
    constructor
    · rintro (hin | ⟨m, hin⟩)
      · left
        by_contra hc
        have c1 : st.worksSM.count i ≠ 0 := by
          intro hc2
          exact List.count_eq_zero.mp hc2 hin
        exact c1 (by rw [h3 i hi, if_neg hc])
      · right
        have c2 : ((st.makes.getD m default).Works).count i ≠ 0 := by
          intro hc2
          exact List.count_eq_zero.mp hc2 hin
        by_cases hcond : (st.works.getD i default).WMake = some m
            ∧ ((st.works.getD i default).WModel).isSome = true
        · exact ⟨by rw [hcond.1]; rfl, hcond.2⟩
        · exact absurd (by rw [h1 i m hi, if_neg hcond]) c2
    · rintro (hnone | ⟨hmk, hmd⟩)
      · left
        have hc1 : st.worksSM.count i = 1 := by
          rw [h3 i hi, if_pos hnone]
        exact List.count_pos_iff.mp (by omega)
      · right
        obtain ⟨m, hm⟩ := Option.isSome_iff_exists.mp hmk
        refine ⟨m, ?_⟩
        have hc1 : ((st.makes.getD m default).Works).count i = 1 := by
          rw [h1 i m hi, if_pos ⟨hm, hmd⟩]
        exact List.count_pos_iff.mp (by omega)

/-- Witness for `nomake_partition` at the concrete feed `tsPartDemo`: the
hypotheses hold by evaluation and the make-less work 0 is counted once in
`worksSM`. -/
theorem nomake_partition_witness :
    parseRun tsPartDemo = .ok stPartDemo ∧ stPartDemo.stack = []
    ∧ stPartDemo.worksSM.count 0 = 1 := by
  refine ⟨by decide, by decide, ?_⟩
  have h := nomake_partition tsPartDemo stPartDemo (by decide) (by decide)
  have h2 := h.1 0 (by decide)
  rw [h2]
  decide

/-- **C2 counterexample**: on `tsMakeOnly2` the run finishes cleanly with one
parsed work, but `worksSM` is empty and the only make's `Works` list is empty
too — the union of `worksSM` and all makes' `Works` misses the work, refuting
the claim that it always equals the full work list. -/
theorem nomake_partition_cex :
    parseRun tsMakeOnly2 = .ok stMakeOnly2 ∧ stMakeOnly2.stack = []
    ∧ stMakeOnly2.works.length = 1
    ∧ stMakeOnly2.worksSM = []
    ∧ stMakeOnly2.makes.map (fun mk => mk.Works) = [[]] := by
  decide

/-! ## Claim C3 -/

theorem internMake_names (ms : List Make) (n : String) :
    ((internMake ms n).2).map (fun mk => mk.Name)
      = if n ∈ ms.map (fun mk => mk.Name) then ms.map (fun mk => mk.Name)
        else ms.map (fun mk => mk.Name) ++ [n] := by
  unfold internMake
  cases hF : findMakeIdx ms n with
  | some i =>
    obtain ⟨hlt, hnm⟩ := findMakeIdx_some _ _ _ hF
    have hmem : n ∈ ms.map (fun mk => mk.Name) := by
      rw [← hnm, List.getD_eq_getElem _ _ hlt]
      exact List.mem_map.mpr ⟨ms[i], List.getElem_mem hlt, rfl⟩
    rw [if_pos hmem]
  | none =>
    have hnone := findMakeIdx_none _ _ hF
    have hmem : n ∉ ms.map (fun mk => mk.Name) := by
      intro hc
      obtain ⟨mk, hmk, hname⟩ := List.mem_map.mp hc
      exact hnone mk hmk hname
    rw [if_neg hmem]
    simp [createMake]

theorem foldIntern_names (rs : List String) (ms : List Make) :
    (foldIntern rs ms).map (fun mk => mk.Name)
      = foldDistinct (rs.map normalizeMakeName) (ms.map (fun mk => mk.Name)) := by
  induction rs generalizing ms with
  | nil => rfl
  | cons r rs ih =>
    have e1 : foldIntern (r :: rs) ms = foldIntern rs (internMake ms (normalizeMakeName r)).2 := rfl
    have e2 : foldDistinct ((r :: rs).map normalizeMakeName) (ms.map (fun mk => mk.Name))
        = foldDistinct (rs.map normalizeMakeName)
            (if normalizeMakeName r ∈ ms.map (fun mk => mk.Name)
             then ms.map (fun mk => mk.Name) else ms.map (fun mk => mk.Name) ++ [normalizeMakeName r]) := by
      by_cases hmem : normalizeMakeName r ∈ ms.map (fun mk => mk.Name)
      · rw [if_pos hmem]
        show foldDistinct (normalizeMakeName r :: rs.map normalizeMakeName) _ = _
        unfold foldDistinct
        rw [List.foldl_cons, if_pos hmem]
      · rw [if_neg hmem]
        show foldDistinct (normalizeMakeName r :: rs.map normalizeMakeName) _ = _
        unfold foldDistinct
        rw [List.foldl_cons, if_neg hmem]
    rw [e1, e2, ih, internMake_names]

theorem foldDistinct_nodup (ns : List String) (acc : List String) (h : acc.Nodup) :
    (foldDistinct ns acc).Nodup := by
  induction ns generalizing acc with
  | nil => exact h
  | cons n ns ih =>
    show ((n :: ns : List String).foldl _ acc).Nodup
    rw [List.foldl_cons]
    by_cases hmem : n ∈ acc
    · rw [if_pos hmem]
      exact ih acc h
    · rw [if_neg hmem]
      refine ih _ ?_
      rw [List.nodup_append]
      refine ⟨h, List.nodup_singleton n, ?_⟩
      intro a ha hb
      rw [List.mem_singleton] at hb
      subst hb
      exact hmem ha

theorem foldDistinct_toFinset (ns : List String) (acc : List String) :
    (foldDistinct ns acc).toFinset = acc.toFinset ∪ ns.toFinset := by
  induction ns generalizing acc with
  | nil => simp [foldDistinct]
  | cons n ns ih =>
    show ((n :: ns : List String).foldl _ acc).toFinset = _
    rw [List.foldl_cons]
    by_cases hmem : n ∈ acc
    · rw [if_pos hmem]
      have := ih acc
      rw [show (ns.foldl (fun acc n => if n ∈ acc then acc else acc ++ [n]) acc)
          = foldDistinct ns acc from rfl, this]
      ext a
      simp only [Finset.mem_union, List.mem_toFinset, List.mem_cons]
      constructor
      · rintro (ha | ha)
        · exact Or.inl ha
        · exact Or.inr (Or.inr ha)
      · rintro (ha | ha | ha)
        · exact Or.inl ha
        · subst ha
          exact Or.inl hmem
        · exact Or.inr ha
    · rw [if_neg hmem]
      have := ih (acc ++ [n])
      rw [show (ns.foldl (fun acc n => if n ∈ acc then acc else acc ++ [n]) (acc ++ [n]))
          = foldDistinct ns (acc ++ [n]) from rfl, this]
      ext a
      simp only [Finset.mem_union, List.mem_toFinset, List.mem_cons, List.mem_append,
        List.mem_singleton]
      tauto

/-- **C3** (idempotent make interning): interning a name that normalizes like
an already-interned one returns the same index and leaves the registry
untouched, and interning any sequence of raw names into an empty registry
produces exactly one entry per distinct normalized name. -/
theorem intern_make_idempotent :
    (∀ (ms : List Make) (r1 r2 : String), normalizeMakeName r1 = normalizeMakeName r2 →
      internMake (internMake ms (normalizeMakeName r1)).2 (normalizeMakeName r2)
        = ((internMake ms (normalizeMakeName r1)).1, (internMake ms (normalizeMakeName r1)).2))
    ∧ (∀ rs : List String,
        (foldIntern rs []).length = ((rs.map normalizeMakeName).toFinset).card) := by
  constructor
  · intro ms r1 r2 h
    rw [← h]
    unfold internMake
    cases hF : findMakeIdx ms (normalizeMakeName r1) with
    | some i =>
      rw [hF]
    | none =>
      have h2 := findMakeIdx_append_one ms (normalizeMakeName r1)
        (createMake (normalizeMakeName r1)) hF rfl
      rw [h2]
  · intro rs
    have h1 : (foldIntern rs []).length
        = ((foldIntern rs []).map (fun mk => mk.Name)).length := by
      rw [List.length_map]
    have h2 := foldIntern_names rs []
    have h3 : (foldDistinct (rs.map normalizeMakeName) ([] : List String)).Nodup :=
      foldDistinct_nodup _ _ (List.nodup_nil)
    have h4 := foldDistinct_toFinset (rs.map normalizeMakeName) []
    simp only [List.map_nil] at h2
    rw [h1, h2, ← List.toFinset_card_of_nodup h3, h4]
    simp

/-- Witness for `intern_make_idempotent`: `" Nikon "` and `"Nikon"` normalize
identically, re-interning returns the same instance without growing the
registry, and interning four raw names (two of which normalize identically)
yields a registry of three makes. -/
theorem intern_make_idempotent_witness :
    normalizeMakeName " Nikon " = normalizeMakeName "Nikon"
    ∧ internMake (internMake [] (normalizeMakeName " Nikon ")).2 (normalizeMakeName "Nikon")
        = ((internMake [] (normalizeMakeName " Nikon ")).1,
           (internMake [] (normalizeMakeName " Nikon ")).2)
    ∧ (foldIntern demoMakeNames []).length = 3 := by
  refine ⟨by decide, intern_make_idempotent.1 [] " Nikon " "Nikon" (by decide), ?_⟩
  have h := intern_make_idempotent.2 demoMakeNames
  rw [h]
  decide

/-! ## Claim C4 -/

theorem step_stack {s s' : PState} {cl : Nat → Bool} (hg : GraphInv s cl) {t : Token}
    (h : step s t = .ok s') :
    (∀ n av, t = .startEl n av → s'.stack = n :: s.stack)
    ∧ (∀ n, t = .endEl n → ∃ rest, s.stack = n :: rest ∧ s'.stack = rest)
    ∧ (∀ d, t = .charData d → s'.stack = s.stack) := by
  refine ⟨?_, ?_, ?_⟩
  · rintro n av rfl
    unfold step at h
    dsimp only at h
    by_cases hwk : n = "work"
    · subst hwk
      rw [if_pos rfl, if_neg (by decide)] at h
      have h2 := Except.ok.inj h
      subst h2
      rfl
    · rw [if_neg hwk] at h
      by_cases hurl : n = "url"
      · rw [if_pos hurl] at h
        have h2 := Except.ok.inj h
        subst h2
        exact (applyUrlAttrs_fields av _).1
      · rw [if_neg hurl] at h
        have h2 := Except.ok.inj h
        subst h2
        rfl
  · rintro n rfl
    unfold step at h
    dsimp only at h
    cases hstk : s.stack with
    | nil =>
      rw [hstk] at h
      simp at h
    | cons p rest =>
      rw [hstk] at h
      dsimp only at h
      by_cases hpn : p = n
      · rw [if_pos hpn] at h
        subst hpn
        by_cases hw : p = "work"
        · rw [if_pos hw] at h
          have hgr : GraphInv ({ s with stack := rest } : PState) cl := hg.of_eq rfl rfl rfl rfl
          obtain ⟨-, -, hstack2, -, -⟩ := finalizeWork_ok hgr h
          exact ⟨rest, rfl, hstack2⟩
        · rw [if_neg hw] at h
          have h2 := Except.ok.inj h
          subst h2
          exact ⟨rest, rfl, rfl⟩
      · rw [if_neg hpn] at h
        simp at h
  · rintro d rfl
    exact (stepCharData_ok hg h).2.2

theorem parseSteps_stackSim {ts : List Token} {s s' : PState} {cl : Nat → Bool}
    (hInv : Inv s cl) (h : parseSteps ts s = .ok s') : stackSim ts s.stack = true := by
  induction ts generalizing s cl with
  | nil => rfl
  | cons t ts ih =>
    unfold parseSteps at h
    cases h1 : step s t with
    | error e =>
      rw [h1] at h
      simp [Except.bind] at h
    | ok s1 =>
      rw [h1] at h
      replace h : parseSteps ts s1 = .ok s' := h
      obtain ⟨cl1, hInv1⟩ := step_Inv hInv h1
      have hrec := ih hInv1 h
      obtain ⟨hs1, hs2, hs3⟩ := step_stack hInv.1 h1
      cases t with
      | startEl n av =>
        show stackSim ts (n :: s.stack) = true
        rw [← hs1 n av rfl]
        exact hrec
      | endEl n =>
        obtain ⟨rest, e1, e2⟩ := hs2 n rfl
        have e3 : stackSim (Token.endEl n :: ts) s.stack = stackSim ts rest := by
          rw [e1]
          show (if n = n then stackSim ts rest else false) = stackSim ts rest
          rw [if_pos rfl]
        rw [e3, ← e2]
        exact hrec
      | charData d =>
        show stackSim ts s.stack = true
        rw [← hs3 d rfl]
        exact hrec

theorem run_ok_stackSim (ts : List Token) (st : PState) (h : parseRun ts = .ok st) :
    stackSim ts [] = true :=
  parseSteps_stackSim initState_Inv h

/-- **C4** (malformed-input rejection): on any token stream whose pure stack
simulation hits an end-tag with an empty stack or a mismatched top entry, the
scan aborts with an error and the program writes no output files (rendering
runs only after the whole scan succeeded). -/
theorem malformed_rejected (ts : List Token) (h : stackSim ts [] = false) :
    (∃ e, parseRun ts = .error e) ∧ outputFiles (programRun ts) = [] := by
  cases hr : parseRun ts with
  | ok st =>
    have h2 := run_ok_stackSim ts st hr
    rw [h] at h2
    cases h2
  | error e =>
    refine ⟨⟨e, rfl⟩, ?_⟩
    unfold outputFiles programRun
    rw [hr]
    rfl

/-- Witness for `malformed_rejected`: the stream consisting of a single
`</work>` is structurally bad and the program leaves no files. -/
theorem malformed_rejected_witness :
    stackSim tsUnmatched [] = false ∧ outputFiles (programRun tsUnmatched) = [] := by
  exact ⟨by decide, (malformed_rejected tsUnmatched (by decide)).2⟩

/-! ## Claim C5 -/

theorem head?_mem_str {l : List String} {x : String} (h : l.head? = some x) : x ∈ l := by
  cases l with
  | nil => exact absurd h (by simp)
  | cons a t =>
    have h2 : a = x := Option.some.inj h
    rw [← h2]
    exact List.mem_cons_self a t

theorem works_map_updLast (l : List Work) (f : Work → Work)
    (hf : ∀ w, (f w).WModel = w.WModel) :
    (updLast l f).map Work.WModel = l.map Work.WModel := by
  induction l with
  | nil => rfl
  | cons a t ih =>
    cases t with
    | nil =>
      show [Work.WModel (f a)] = [a.WModel]
      rw [hf]
    | cons b u =>
      show Work.WModel a :: (updLast (b :: u) f).map Work.WModel
          = Work.WModel a :: (b :: u).map Work.WModel
      rw [ih]

theorem uriBlockSmall_noflag {u : PState} (d : String) (h : u.thumbnailURI = false) :
    uriBlockSmall u d = u := by
  unfold uriBlockSmall
  rw [if_neg (by rw [h]; decide)]

theorem uriBlockMedium_noflag {u : PState} (d : String) (h : u.mediumURI = false) :
    uriBlockMedium u d = u := by
  unfold uriBlockMedium
  rw [if_neg (by rw [h]; decide)]

theorem uriBlockLarge_noflag {u : PState} (d : String) (h : u.largeURI = false) :
    uriBlockLarge u d = u := by
  unfold uriBlockLarge
  rw [if_neg (by rw [h]; decide)]

theorem stepURI_noflags {u : PState} (d : String)
    (h1 : u.thumbnailURI = false) (h2 : u.mediumURI = false) (h3 : u.largeURI = false) :
    stepURI u d = u := by
  unfold stepURI
  rw [uriBlockSmall_noflag d h1, uriBlockMedium_noflag d h2, uriBlockLarge_noflag d h3]

theorem uriBlockSmall_frame (s : PState) (d : String) :
    (uriBlockSmall s d).stack = s.stack
    ∧ (uriBlockSmall s d).newModelDetected = s.newModelDetected
    ∧ (uriBlockSmall s d).works.map Work.WModel = s.works.map Work.WModel := by
  unfold uriBlockSmall
  by_cases h1 : s.thumbnailURI = true
  · by_cases h2 : s.works.length > 0
    · rw [if_pos h1, if_pos h2]
      exact ⟨rfl, rfl, works_map_updLast _ _ (fun w => rfl)⟩
    · rw [if_pos h1, if_neg h2]
      exact ⟨rfl, rfl, rfl⟩
  · rw [if_neg h1]
    exact ⟨rfl, rfl, rfl⟩

theorem uriBlockMedium_frame (s : PState) (d : String) :
    (uriBlockMedium s d).stack = s.stack
    ∧ (uriBlockMedium s d).newModelDetected = s.newModelDetected
    ∧ (uriBlockMedium s d).works.map Work.WModel = s.works.map Work.WModel := by
  unfold uriBlockMedium
  by_cases h1 : s.mediumURI = true
  · by_cases h2 : s.works.length > 0
    · rw [if_pos h1, if_pos h2]
      exact ⟨rfl, rfl, works_map_updLast _ _ (fun w => rfl)⟩
    · rw [if_pos h1, if_neg h2]
      exact ⟨rfl, rfl, rfl⟩
  · rw [if_neg h1]
    exact ⟨rfl, rfl, rfl⟩

theorem uriBlockLarge_frame (s : PState) (d : String) :
    (uriBlockLarge s d).stack = s.stack
    ∧ (uriBlockLarge s d).newModelDetected = s.newModelDetected
    ∧ (uriBlockLarge s d).works.map Work.WModel = s.works.map Work.WModel := by
  unfold uriBlockLarge
  by_cases h1 : s.largeURI = true
  · by_cases h2 : s.works.length > 0
    · rw [if_pos h1, if_pos h2]
      exact ⟨rfl, rfl, works_map_updLast _ _ (fun w => rfl)⟩
    · rw [if_pos h1, if_neg h2]
      exact ⟨rfl, rfl, rfl⟩
  · rw [if_neg h1]
    exact ⟨rfl, rfl, rfl⟩

theorem stepURI_frame (s : PState) (d : String) :
    (stepURI s d).stack = s.stack
    ∧ (stepURI s d).newModelDetected = s.newModelDetected
    ∧ (stepURI s d).works.map Work.WModel = s.works.map Work.WModel := by
  obtain ⟨a1, a2, a3⟩ := uriBlockSmall_frame s d
  obtain ⟨b1, b2, b3⟩ := uriBlockMedium_frame (uriBlockSmall s d) d
  obtain ⟨c1, c2, c3⟩ := uriBlockLarge_frame (uriBlockMedium (uriBlockSmall s d) d) d
  exact ⟨(c1.trans b1).trans a1, (c2.trans b2).trans a2, (c3.trans b3).trans a3⟩

theorem stepMake_noop {s : PState} {d : String} (h : ¬ s.stack.head? = some "make") :
    stepMake s d = .ok s := by
  unfold stepMake
  rw [if_neg h]

theorem stepId_frame {s s' : PState} {d : String} (h : stepId s d = .ok s') :
    s'.stack = s.stack ∧ s'.works.map Work.WModel = s.works.map Work.WModel := by
  unfold stepId at h
  by_cases hHead : s.stack.head? = some "id"
  · rw [if_pos hHead] at h
    cases hA : atoi d with
    | none =>
      rw [hA] at h
      simp at h
    | some n =>
      rw [hA] at h
      dsimp only at h
      by_cases hOpen : s.newWorkOpen = true
      · rw [if_pos hOpen] at h
        have h2 := Except.ok.inj h
        subst h2
        exact ⟨rfl, works_map_updLast _ _ (fun w => rfl)⟩
      · rw [if_neg hOpen] at h
        simp at h
  · rw [if_neg hHead] at h
    have h2 := Except.ok.inj h
    subst h2
    exact ⟨rfl, rfl⟩

theorem stepFilename_frame {s s' : PState} {d : String} (h : stepFilename s d = .ok s') :
    s'.stack = s.stack ∧ s'.works.map Work.WModel = s.works.map Work.WModel := by
  unfold stepFilename at h
  by_cases hHead : s.stack.head? = some "filename"
  · rw [if_pos hHead] at h
    by_cases hOpen : s.newWorkOpen = true
    · rw [if_pos hOpen] at h
      have h2 := Except.ok.inj h
      subst h2
      exact ⟨rfl, works_map_updLast _ _ (fun w => rfl)⟩
    · rw [if_neg hOpen] at h
      simp at h
  · rw [if_neg hHead] at h
    have h2 := Except.ok.inj h
    subst h2
    exact ⟨rfl, rfl⟩

theorem finalizeWork_frame {s s' : PState} (h : finalizeWork s = .ok s') :
    s'.works = s.works ∧ s'.stack = s.stack := by
  unfold finalizeWork at h
  cases hO : s.newWorkOpen with
  | false =>
    rw [hO] at h
    simp at h
  | true =>
    rw [hO] at h
    cases hL : s.works.getLast? with
    | none =>
      rw [hL] at h
      simp at h
    | some w =>
      rw [hL] at h
      dsimp only at h
      cases hm : w.WMake with
      | none =>
        rw [hm, if_pos rfl] at h
        have h2 := Except.ok.inj h
        subst h2
        exact ⟨rfl, rfl⟩
      | some mi =>
        rw [hm, if_neg (fun hcc => Option.noConfusion hcc)] at h
        cases hmo : w.WModel with
        | none =>
          rw [hmo] at h
          have h2 := Except.ok.inj h
          subst h2
          exact ⟨rfl, rfl⟩
        | some mj =>
          rw [hmo] at h
          have h2 := Except.ok.inj h
          subst h2
          exact ⟨rfl, rfl⟩

theorem stepCharData_nomake {s s' : PState} {d0 : String}
    (hns : "make" ∉ s.stack)
    (h : step s (.charData d0) = .ok s') :
    s'.stack = s.stack ∧ s'.works.map Work.WModel = s.works.map Work.WModel := by
  unfold step at h
  dsimp only at h
  cases h1 : stepId s (trimStr d0) with
  | error e =>
    rw [h1] at h
    simp [Except.bind] at h
  | ok s1 =>
    rw [h1] at h
    replace h : (stepFilename s1 (trimStr d0)).bind
        (fun s => (stepMake s (trimStr d0)).map fun s => stepURI (stepModel s (trimStr d0)) (trimStr d0))
        = .ok s' := h
    obtain ⟨f1, f2⟩ := stepId_frame h1
    cases h2 : stepFilename s1 (trimStr d0) with
    | error e =>
      rw [h2] at h
      simp [Except.bind] at h
    | ok s2 =>
      rw [h2] at h
      replace h : (stepMake s2 (trimStr d0)).map
          (fun s => stepURI (stepModel s (trimStr d0)) (trimStr d0)) = .ok s' := h
      obtain ⟨g1, g2⟩ := stepFilename_frame h2
      have hh2 : ¬ s2.stack.head? = some "make" := by
        rw [g1, f1]
        intro hc
        exact hns (head?_mem_str hc)
      rw [stepMake_noop hh2] at h
      replace h : Except.ok (stepURI (stepModel s2 (trimStr d0)) (trimStr d0)) = .ok s' := h
      have h4 := Except.ok.inj h
      subst h4
      obtain ⟨m1, m2, _, _, _⟩ := stepModel_fields s2 (trimStr d0)
      obtain ⟨u1, u2, u3⟩ := stepURI_frame (stepModel s2 (trimStr d0)) (trimStr d0)
      constructor
      · rw [u1, m1, g1, f1]
      · rw [u3, m2, g2, f2]

theorem step_nomake_pres {s s' : PState} {t : Token}
    (hstk : "make" ∉ s.stack) (hw : ∀ w ∈ s.works, w.WModel = none)
    (ht : ∀ a, t ≠ Token.startEl "make" a)
    (h : step s t = .ok s') :
    "make" ∉ s'.stack ∧ ∀ w ∈ s'.works, w.WModel = none := by
  cases t with
  | charData d0 =>
    obtain ⟨c1, c2⟩ := stepCharData_nomake hstk h
    refine ⟨by rw [c1]; exact hstk, ?_⟩
    intro w hwm
    have hmm : w.WModel ∈ s'.works.map Work.WModel := List.mem_map_of_mem _ hwm
    rw [c2] at hmm
    obtain ⟨y, hy, hyw⟩ := List.mem_map.mp hmm
    rw [← hyw]
    exact hw y hy
  | startEl name attrVals =>
    unfold step at h
    dsimp only at h
    have hname : ¬ name = "make" := by
      intro hc
      exact (ht attrVals) (by rw [hc])
    by_cases hwk : name = "work"
    · subst hwk
      rw [if_pos rfl, if_neg (by decide)] at h
      have h2 := Except.ok.inj h
      subst h2
      constructor
      · intro hc
        rcases List.mem_cons.mp hc with hc1 | hc1
        · exact absurd hc1 (by decide)
        · exact hstk hc1
      · intro w hwm
        rcases List.mem_append.mp hwm with h5 | h5
        · exact hw w h5
        · rw [List.mem_singleton.mp h5]
          rfl
    · rw [if_neg hwk] at h
      by_cases hurl : name = "url"
      · rw [if_pos hurl] at h
        have h2 := Except.ok.inj h
        subst h2
        obtain ⟨a1, a2, _, _, _, _, _⟩ :=
          applyUrlAttrs_fields attrVals { s with stack := name :: s.stack }
        constructor
        · rw [a1]
          intro hc
          rcases List.mem_cons.mp hc with hc1 | hc1
          · exact hname hc1.symm
          · exact hstk hc1
        · rw [a2]
          intro w hwm
          exact hw w hwm
      · rw [if_neg hurl] at h
        have h2 := Except.ok.inj h
        subst h2
        constructor
        · intro hc
          rcases List.mem_cons.mp hc with hc1 | hc1
          · exact hname hc1.symm
          · exact hstk hc1
        · exact hw
  | endEl name =>
    unfold step at h
    dsimp only at h
    cases hst : s.stack with
    | nil =>
      rw [hst] at h
      simp at h
    | cons popped rest =>
      rw [hst] at h
      dsimp only at h
      by_cases hpn : popped = name
      · rw [if_pos hpn] at h
        by_cases hwork : popped = "work"
        · rw [if_pos hwork] at h
          obtain ⟨w1, w2⟩ := finalizeWork_frame h
          constructor
          · rw [w2]
            show "make" ∉ rest
            intro hc
            exact hstk (by rw [hst]; exact List.mem_cons_of_mem popped hc)
          · rw [w1]
            intro w hwm
            exact hw w hwm
        · rw [if_neg hwork] at h
          have h2 := Except.ok.inj h
          subst h2
          constructor
          · intro hc
            exact hstk (by rw [hst]; exact List.mem_cons_of_mem popped hc)
          · exact hw
      · rw [if_neg hpn] at h
        simp at h

theorem parseSteps_nomake {ts : List Token} {s s' : PState}
    (hm : hasMakeStart ts = false)
    (hstk : "make" ∉ s.stack) (hw : ∀ w ∈ s.works, w.WModel = none)
    (h : parseSteps ts s = .ok s') :
    "make" ∉ s'.stack ∧ ∀ w ∈ s'.works, w.WModel = none := by
  induction ts generalizing s with
  | nil =>
    have h2 := Except.ok.inj h
    subst h2
    exact ⟨hstk, hw⟩
  | cons t ts ih =>
    replace h : (step s t).bind (parseSteps ts) = .ok s' := h
    have hmt : ∀ a, t ≠ Token.startEl "make" a := by
      intro a hc
      subst hc
      unfold hasMakeStart at hm
      simp at hm
    have hmts : hasMakeStart ts = false := by
      cases t with
      | startEl n av =>
        unfold hasMakeStart at hm
        exact (Bool.or_eq_false_iff.mp hm).2
      | endEl n => exact hm
      | charData d0 => exact hm
    cases hstep : step s t with
    | error e =>
      rw [hstep] at h
      simp [Except.bind] at h
    | ok s1 =>
      rw [hstep] at h
      replace h : parseSteps ts s1 = .ok s' := h
      obtain ⟨p1, p2⟩ := step_nomake_pres hstk hw hmt hstep
      exact ih hmts p1 p2 h

theorem c5_model_branch (s : PState) (data : String)
    (hh : s.stack.head? = some "model")
    (h1 : s.thumbnailURI = false) (h2 : s.mediumURI = false) (h3 : s.largeURI = false) :
    step s (.charData data)
      = .ok { s with newModel := trimStr data, newModelDetected := true } := by
  have hid : stepId s (trimStr data) = .ok s := by
    unfold stepId
    rw [if_neg (by rw [hh]; decide)]
  have hfn : stepFilename s (trimStr data) = .ok s := by
    unfold stepFilename
    rw [if_neg (by rw [hh]; decide)]
  have hmk : stepMake s (trimStr data) = .ok s :=
    stepMake_noop (by rw [hh]; decide)
  have hmd : stepModel s (trimStr data)
      = { s with newModel := trimStr data, newModelDetected := true } := by
    unfold stepModel
    rw [if_pos hh]
  show (stepId s (trimStr data)).bind _ = _
  rw [hid]
  show (stepFilename s (trimStr data)).bind _ = _
  rw [hfn]
  show (stepMake s (trimStr data)).map _ = _
  rw [hmk]
  show Except.ok (stepURI (stepModel s (trimStr data)) (trimStr data)) = _
  rw [hmd]
  exact congrArg Except.ok (stepURI_noflags (trimStr data) h1 h2 h3)

theorem pending_resolves (s1 : PState) (mi : Nat) (w1 : Work)
    (hpend1 : s1.newModelDetected = true)
    (hlast : s1.works.getLast? = some w1)
    (hwm : w1.WMake = some mi) :
    ∃ s2 p, stepMakeModelPending s1 mi = .ok s2
      ∧ s2.newModelDetected = false ∧ s2.stack = s1.stack
      ∧ (s2.works.getLast?).map Work.WModel = some (some p) := by
  unfold stepMakeModelPending
  rw [if_pos hpend1, hlast]
  dsimp only
  rw [hwm]
  dsimp only
  cases hj : lastModelIdx ((s1.makes.getD mi default).Models)
      (if s1.newModel = "" then "(Generic model)" else s1.newModel) with
  | some j =>
    refine ⟨_, (mi, j), rfl, rfl, rfl, ?_⟩
    show ((updLast s1.works (fun w => { w with WModel := some (mi, j) })).getLast?).map
        Work.WModel = _
    rw [getLast?_updLast, hlast]
    rfl
  | none =>
    refine ⟨_, (mi, (s1.makes.getD mi default).Models.length), rfl, rfl, rfl, ?_⟩
    show ((updLast s1.works
        (fun w => { w with WModel := some (mi, (s1.makes.getD mi default).Models.length) })).getLast?).map
        Work.WModel = _
    rw [getLast?_updLast, hlast]
    rfl

theorem stepMake_open {s : PState} {d : String}
    (hh : s.stack.head? = some "make") (hopen : s.newWorkOpen = true) :
    stepMake s d
      = stepMakeModelPending
          { s with
            makes := (internMake s.makes (if d = "" then "(Generic make)" else d)).2,
            works := updLast s.works (fun w => { w with WMake := some (internMake s.makes (if d = "" then "(Generic make)" else d)).1 }) }
          (internMake s.makes (if d = "" then "(Generic make)" else d)).1 := by
  unfold stepMake
  rw [if_pos hh, if_pos hopen]

theorem c5_make_resolves (s : PState) (data : String)
    (hh : s.stack.head? = some "make") (hopen : s.newWorkOpen = true)
    (hpend : s.newModelDetected = true) (hne : s.works ≠ []) :
    ∃ s' p, step s (.charData data) = .ok s'
      ∧ s'.newModelDetected = false
      ∧ (s'.works.getLast?).map Work.WModel = some (some p) := by
  obtain ⟨w0, hw0⟩ : ∃ w0, s.works.getLast? = some w0 :=
    Option.isSome_iff_exists.mp (List.getLast?_isSome.mpr hne)
  have hid : stepId s (trimStr data) = .ok s := by
    unfold stepId
    rw [if_neg (by rw [hh]; decide)]
  have hfn : stepFilename s (trimStr data) = .ok s := by
    unfold stepFilename
    rw [if_neg (by rw [hh]; decide)]
  have hstep : step s (.charData data)
      = (stepMake s (trimStr data)).map
          (fun u => stepURI (stepModel u (trimStr data)) (trimStr data)) := by
    show (stepId s (trimStr data)).bind _ = _
    rw [hid]
    show (stepFilename s (trimStr data)).bind _ = _
    rw [hfn]
    rfl
  obtain ⟨s2, p, hp1, hp2, hp3, hp4⟩ :=
    pending_resolves
      { s with
        makes := (internMake s.makes (if trimStr data = "" then "(Generic make)" else trimStr data)).2,
        works := updLast s.works (fun w => { w with WMake := some (internMake s.makes (if trimStr data = "" then "(Generic make)" else trimStr data)).1 }) }
      (internMake s.makes (if trimStr data = "" then "(Generic make)" else trimStr data)).1
      { w0 with WMake := some (internMake s.makes (if trimStr data = "" then "(Generic make)" else trimStr data)).1 }
      hpend
      (by
        show (updLast s.works (fun w => { w with WMake := some (internMake s.makes (if trimStr data = "" then "(Generic make)" else trimStr data)).1 })).getLast? = _
        rw [getLast?_updLast, hw0]
        rfl)
      rfl
  have hp3s : s2.stack = s.stack := hp3
  have hmod : stepModel s2 (trimStr data) = s2 := by
    unfold stepModel
    rw [if_neg (by rw [hp3s, hh]; decide)]
  obtain ⟨u1, u2, u3⟩ := stepURI_frame s2 (trimStr data)
  refine ⟨stepURI (stepModel s2 (trimStr data)) (trimStr data), p, ?_, ?_, ?_⟩
  · rw [hstep, stepMake_open hh hopen, hp1]
    rfl
  · rw [hmod, u2]
    exact hp2
  · rw [hmod]
    calc ((stepURI s2 (trimStr data)).works.getLast?).map Work.WModel
        = ((stepURI s2 (trimStr data)).works.map Work.WModel).getLast? :=
          (List.getLast?_map _ _).symm
      _ = (s2.works.map Work.WModel).getLast? := by rw [u3]
      _ = (s2.works.getLast?).map Work.WModel := List.getLast?_map _ _
      _ = some (some p) := hp4

/-- **C5** (deferred model resolution, amended): a model text token seen with
no URI flag raised only stores the trimmed name and raises the pending flag; a
make text token in an open work with the flag raised resolves the pending
model, clears the flag and leaves the current work with a non-null model
reference; and in a stream with no make element at all every parsed work ends
with a null model reference.  (The claim as written — the work always closes
with a null model when no make text token follows — is refuted by the
counterexample, where an earlier resolution leaves a non-null model.) -/
theorem deferred_model_resolution :
    (∀ (s : PState) (data : String),
        s.stack.head? = some "model" →
        s.thumbnailURI = false → s.mediumURI = false → s.largeURI = false →
        step s (.charData data)
          = .ok { s with newModel := trimStr data, newModelDetected := true })
    ∧ (∀ (s : PState) (data : String),
        s.stack.head? = some "make" → s.newWorkOpen = true →
        s.newModelDetected = true → s.works ≠ [] →
        ∃ s' p, step s (.charData data) = .ok s'
          ∧ s'.newModelDetected = false
          ∧ (s'.works.getLast?).map Work.WModel = some (some p))
    ∧ (∀ (ts : List Token) (s' : PState),
        hasMakeStart ts = false → parseRun ts = .ok s' →
        ∀ w ∈ s'.works, w.WModel = none) :=
  ⟨c5_model_branch, c5_make_resolves,
   fun ts s' hm h =>
     (parseSteps_nomake hm (List.not_mem_nil "make")
       (fun w hwm => absurd hwm (List.not_mem_nil w)) h).2⟩

/-- **C5 counterexample**: in `tsModelAfterMake` the last model text token is
followed by no make token inside its work (only end tags remain), yet the run
succeeds and the work closes with a NON-null model reference — the resolution
triggered by the earlier make token — refuting the claim's final clause. -/
theorem deferred_model_resolution_cex :
    tsModelAfterMake.drop 10 = [.endEl "model", .endEl "work", .endEl "works"]
    ∧ hasMakeStart (tsModelAfterMake.drop 10) = false
    ∧ (parseRun tsModelAfterMake).map (fun s => s.works.map Work.WModel)
        = .ok [some (0, 0)] := by
  refine ⟨rfl, rfl, ?_⟩
  decide

/-- Witness for C5: concrete instantiations of the three conjuncts. -/
theorem deferred_model_resolution_witness :
    (step sModelCtx (.charData " D90 ")
      = .ok { sModelCtx with newModel := "D90", newModelDetected := true })
    ∧ ((step sMakePending (.charData "Nikon")).map (fun s => s.newModelDetected) = .ok false)
    ∧ ((sNoMakeFinal.works.getD 0 default).WModel = none) := by
  refine ⟨?_, ?_, ?_⟩
  · have h := deferred_model_resolution.1 sModelCtx " D90 "
      (by decide) (by decide) (by decide) (by decide)
    rw [h]
    decide
  · obtain ⟨s', p, hp1, hp2, hp3⟩ := deferred_model_resolution.2.1 sMakePending "Nikon"
      (by decide) (by decide) (by decide) (by decide)
    rw [hp1]
    show Except.ok s'.newModelDetected = .ok false
    rw [hp2]
  · exact deferred_model_resolution.2.2 tsNoMakeStream sNoMakeFinal (by decide) (by decide)
      (sNoMakeFinal.works.getD 0 default) (by decide)

/-! ## Claim C6 -/

theorem nonLast_refl (a : List Work) : NonLastPres a a :=
  ⟨le_refl _, fun _ _ => rfl⟩

theorem nonLast_trans {a b c : List Work} (h1 : NonLastPres a b) (h2 : NonLastPres b c) :
    NonLastPres a c :=
  ⟨le_trans h1.1 h2.1,
   fun i hi => (h2.2 i (lt_of_lt_of_le hi h1.1)).trans (h1.2 i hi)⟩

theorem nonLast_updLast (l : List Work) (f : Work → Work) : NonLastPres l (updLast l f) :=
  ⟨le_of_eq (length_updLast l f).symm, fun i hi => getD_updLast_of_lt l f i default hi⟩

theorem nonLast_append (l m : List Work) : NonLastPres l (l ++ m) :=
  ⟨by simp, fun i hi => List.getD_append l m default i (by omega)⟩

theorem stepMakeModelPending_nonLast {s1 s' : PState} {mi : Nat}
    (h : stepMakeModelPending s1 mi = .ok s') : NonLastPres s1.works s'.works := by
  unfold stepMakeModelPending at h
  by_cases hp : s1.newModelDetected = true
  · rw [if_pos hp] at h
    cases hL : s1.works.getLast? with
    | none =>
      rw [hL] at h
      simp at h
    | some w =>
      rw [hL] at h
      dsimp only at h
      cases hm : w.WMake with
      | none =>
        rw [hm] at h
        have h2 := Except.ok.inj h
        subst h2
        exact nonLast_refl _
      | some mi2 =>
        rw [hm] at h
        dsimp only at h
        cases hj : lastModelIdx ((s1.makes.getD mi2 default).Models)
            (if s1.newModel = "" then "(Generic model)" else s1.newModel) with
        | some j =>
          rw [hj] at h
          have h2 := Except.ok.inj h
          subst h2
          exact nonLast_updLast _ _
        | none =>
          rw [hj] at h
          have h2 := Except.ok.inj h
          subst h2
          exact nonLast_updLast _ _
  · rw [if_neg hp] at h
    have h2 := Except.ok.inj h
    subst h2
    exact nonLast_refl _

theorem stepId_nonLast {s s' : PState} {d : String} (h : stepId s d = .ok s') :
    NonLastPres s.works s'.works := by
  unfold stepId at h
  by_cases hHead : s.stack.head? = some "id"
  · rw [if_pos hHead] at h
    cases hA : atoi d with
    | none =>
      rw [hA] at h
      simp at h
    | some n =>
      rw [hA] at h
      dsimp only at h
      by_cases hOpen : s.newWorkOpen = true
      · rw [if_pos hOpen] at h
        have h2 := Except.ok.inj h
        subst h2
        exact nonLast_updLast _ _
      · rw [if_neg hOpen] at h
        simp at h
  · rw [if_neg hHead] at h
    have h2 := Except.ok.inj h
    subst h2
    exact nonLast_refl _

theorem stepFilename_nonLast {s s' : PState} {d : String} (h : stepFilename s d = .ok s') :
    NonLastPres s.works s'.works := by
  unfold stepFilename at h
  by_cases hHead : s.stack.head? = some "filename"
  · rw [if_pos hHead] at h
    by_cases hOpen : s.newWorkOpen = true
    · rw [if_pos hOpen] at h
      have h2 := Except.ok.inj h
      subst h2
      exact nonLast_updLast _ _
    · rw [if_neg hOpen] at h
      simp at h
  · rw [if_neg hHead] at h
    have h2 := Except.ok.inj h
    subst h2
    exact nonLast_refl _

theorem stepMake_nonLast {s s' : PState} {d : String} (h : stepMake s d = .ok s') :
    NonLastPres s.works s'.works := by
  unfold stepMake at h
  by_cases hHead : s.stack.head? = some "make"
  · rw [if_pos hHead] at h
    by_cases hOpen : s.newWorkOpen = true
    · rw [if_pos hOpen] at h
      have hp := stepMakeModelPending_nonLast h
      exact nonLast_trans (nonLast_updLast s.works _) hp
    · rw [if_neg hOpen] at h
      simp at h
  · rw [if_neg hHead] at h
    have h2 := Except.ok.inj h
    subst h2
    exact nonLast_refl _

theorem uriBlockSmall_nonLast (s : PState) (d : String) :
    NonLastPres s.works (uriBlockSmall s d).works := by
  unfold uriBlockSmall
  by_cases h1 : s.thumbnailURI = true
  · by_cases h2 : s.works.length > 0
    · rw [if_pos h1, if_pos h2]
      exact nonLast_updLast _ _
    · rw [if_pos h1, if_neg h2]
      exact nonLast_refl _
  · rw [if_neg h1]
    exact nonLast_refl _

theorem uriBlockMedium_nonLast (s : PState) (d : String) :
    NonLastPres s.works (uriBlockMedium s d).works := by
  unfold uriBlockMedium
  by_cases h1 : s.mediumURI = true
  · by_cases h2 : s.works.length > 0
    · rw [if_pos h1, if_pos h2]
      exact nonLast_updLast _ _
    · rw [if_pos h1, if_neg h2]
      exact nonLast_refl _
  · rw [if_neg h1]
    exact nonLast_refl _

theorem uriBlockLarge_nonLast (s : PState) (d : String) :
    NonLastPres s.works (uriBlockLarge s d).works := by
  unfold uriBlockLarge
  by_cases h1 : s.largeURI = true
  · by_cases h2 : s.works.length > 0
    · rw [if_pos h1, if_pos h2]
      exact nonLast_updLast _ _
    · rw [if_pos h1, if_neg h2]
      exact nonLast_refl _
  · rw [if_neg h1]
    exact nonLast_refl _

theorem stepURI_nonLast (s : PState) (d : String) :
    NonLastPres s.works (stepURI s d).works :=
  nonLast_trans (uriBlockSmall_nonLast s d)
    (nonLast_trans (uriBlockMedium_nonLast (uriBlockSmall s d) d)
      (uriBlockLarge_nonLast (uriBlockMedium (uriBlockSmall s d) d) d))

theorem step_nonLast {s s' : PState} {t : Token} (h : step s t = .ok s') :
    NonLastPres s.works s'.works := by
  cases t with
  | charData d0 =>
    unfold step at h
    dsimp only at h
    cases h1 : stepId s (trimStr d0) with
    | error e =>
      rw [h1] at h
      simp [Except.bind] at h
    | ok s1 =>
      rw [h1] at h
      replace h : (stepFilename s1 (trimStr d0)).bind
          (fun s => (stepMake s (trimStr d0)).map fun s => stepURI (stepModel s (trimStr d0)) (trimStr d0))
          = .ok s' := h
      cases h2 : stepFilename s1 (trimStr d0) with
      | error e =>
        rw [h2] at h
        simp [Except.bind] at h
      | ok s2 =>
        rw [h2] at h
        replace h : (stepMake s2 (trimStr d0)).map
            (fun s => stepURI (stepModel s (trimStr d0)) (trimStr d0)) = .ok s' := h
        cases h3 : stepMake s2 (trimStr d0) with
        | error e =>
          rw [h3] at h
          simp [Except.map] at h
        | ok s3 =>
          rw [h3] at h
          replace h : Except.ok (stepURI (stepModel s3 (trimStr d0)) (trimStr d0)) = .ok s' := h
          have h4 := Except.ok.inj h
          subst h4
          obtain ⟨_, mw, _, _, _⟩ := stepModel_fields s3 (trimStr d0)
          have hu := stepURI_nonLast (stepModel s3 (trimStr d0)) (trimStr d0)
          rw [mw] at hu
          exact nonLast_trans (stepId_nonLast h1)
            (nonLast_trans (stepFilename_nonLast h2)
              (nonLast_trans (stepMake_nonLast h3) hu))
  | startEl name attrVals =>
    unfold step at h
    dsimp only at h
    by_cases hwk : name = "work"
    · subst hwk
      rw [if_pos rfl, if_neg (by decide)] at h
      have h2 := Except.ok.inj h
      subst h2
      exact nonLast_append _ _
    · rw [if_neg hwk] at h
      by_cases hurl : name = "url"
      · rw [if_pos hurl] at h
        have h2 := Except.ok.inj h
        subst h2
        obtain ⟨_, a2, _, _, _, _, _⟩ :=
          applyUrlAttrs_fields attrVals { s with stack := name :: s.stack }
        rw [a2]
        exact nonLast_refl _
      · rw [if_neg hurl] at h
        have h2 := Except.ok.inj h
        subst h2
        exact nonLast_refl _
  | endEl name =>
    unfold step at h
    dsimp only at h
    cases hst : s.stack with
    | nil =>
      rw [hst] at h
      simp at h
    | cons popped rest =>
      rw [hst] at h
      dsimp only at h
      by_cases hpn : popped = name
      · rw [if_pos hpn] at h
        by_cases hwork : popped = "work"
        · rw [if_pos hwork] at h
          obtain ⟨w1, _⟩ := finalizeWork_frame h
          rw [w1]
          exact nonLast_refl _
        · rw [if_neg hwork] at h
          have h2 := Except.ok.inj h
          subst h2
          exact nonLast_refl _
      · rw [if_neg hpn] at h
        simp at h

theorem stepModel_flags (s : PState) (d : String) :
    (stepModel s d).thumbnailURI = s.thumbnailURI
    ∧ (stepModel s d).mediumURI = s.mediumURI
    ∧ (stepModel s d).largeURI = s.largeURI := by
  unfold stepModel
  by_cases h : s.stack.head? = some "model" <;> simp [h]

theorem stepId_closed {s s' : PState} {d : String}
    (hcl : s.newWorkOpen = false) (h : stepId s d = .ok s') : s' = s := by
  unfold stepId at h
  by_cases hHead : s.stack.head? = some "id"
  · rw [if_pos hHead] at h
    cases hA : atoi d with
    | none =>
      rw [hA] at h
      simp at h
    | some n =>
      rw [hA] at h
      dsimp only at h
      rw [if_neg (by rw [hcl]; decide)] at h
      simp at h
  · rw [if_neg hHead] at h
    exact (Except.ok.inj h).symm

theorem stepFilename_closed {s s' : PState} {d : String}
    (hcl : s.newWorkOpen = false) (h : stepFilename s d = .ok s') : s' = s := by
  unfold stepFilename at h
  by_cases hHead : s.stack.head? = some "filename"
  · rw [if_pos hHead, if_neg (by rw [hcl]; decide)] at h
    simp at h
  · rw [if_neg hHead] at h
    exact (Except.ok.inj h).symm

theorem stepMake_closed {s s' : PState} {d : String}
    (hcl : s.newWorkOpen = false) (h : stepMake s d = .ok s') : s' = s := by
  unfold stepMake at h
  by_cases hHead : s.stack.head? = some "make"
  · rw [if_pos hHead, if_neg (by rw [hcl]; decide)] at h
    simp at h
  · rw [if_neg hHead] at h
    exact (Except.ok.inj h).symm

theorem step_closed_frame {s s' : PState} {t : Token}
    (hcl : s.newWorkOpen = false)
    (hf1 : s.thumbnailURI = false) (hf2 : s.mediumURI = false) (hf3 : s.largeURI = false)
    (h : step s t = .ok s') :
    ∀ i, i < s.works.length → s'.works.getD i default = s.works.getD i default := by
  cases t with
  | charData d0 =>
    unfold step at h
    dsimp only at h
    cases h1 : stepId s (trimStr d0) with
    | error e =>
      rw [h1] at h
      simp [Except.bind] at h
    | ok s1 =>
      have hs1 : s1 = s := stepId_closed hcl h1
      subst hs1
      rw [h1] at h
      replace h : (stepFilename s1 (trimStr d0)).bind
          (fun s => (stepMake s (trimStr d0)).map fun s => stepURI (stepModel s (trimStr d0)) (trimStr d0))
          = .ok s' := h
      cases h2 : stepFilename s1 (trimStr d0) with
      | error e =>
        rw [h2] at h
        simp [Except.bind] at h
      | ok s2 =>
        have hs2 : s2 = s1 := stepFilename_closed hcl h2
        subst hs2
        rw [h2] at h
        replace h : (stepMake s2 (trimStr d0)).map
            (fun s => stepURI (stepModel s (trimStr d0)) (trimStr d0)) = .ok s' := h
        cases h3 : stepMake s2 (trimStr d0) with
        | error e =>
          rw [h3] at h
          simp [Except.map] at h
        | ok s3 =>
          have hs3 : s3 = s2 := stepMake_closed hcl h3
          subst hs3
          rw [h3] at h
          replace h : Except.ok (stepURI (stepModel s3 (trimStr d0)) (trimStr d0)) = .ok s' := h
          have h4 := Except.ok.inj h
          subst h4
          obtain ⟨q1, q2, q3⟩ := stepModel_flags s3 (trimStr d0)
          obtain ⟨_, mw, _, _, _⟩ := stepModel_fields s3 (trimStr d0)
          rw [stepURI_noflags (trimStr d0) (q1.trans hf1) (q2.trans hf2) (q3.trans hf3), mw]
          intro i _
          rfl
  | startEl name attrVals =>
    unfold step at h
    dsimp only at h
    by_cases hwk : name = "work"
    · subst hwk
      rw [if_pos rfl, if_neg (by decide)] at h
      have h2 := Except.ok.inj h
      subst h2
      intro i hi
      exact List.getD_append _ _ default i hi
    · rw [if_neg hwk] at h
      by_cases hurl : name = "url"
      · rw [if_pos hurl] at h
        have h2 := Except.ok.inj h
        subst h2
        obtain ⟨_, a2, _, _, _, _, _⟩ :=
          applyUrlAttrs_fields attrVals { s with stack := name :: s.stack }
        rw [a2]
        intro i _
        rfl
      · rw [if_neg hurl] at h
        have h2 := Except.ok.inj h
        subst h2
        intro i _
        rfl
  | endEl name =>
    unfold step at h
    dsimp only at h
    cases hst : s.stack with
    | nil =>
      rw [hst] at h
      simp at h
    | cons popped rest =>
      rw [hst] at h
      dsimp only at h
      by_cases hpn : popped = name
      · rw [if_pos hpn] at h
        by_cases hwork : popped = "work"
        · rw [if_pos hwork] at h
          unfold finalizeWork at h
          have hco : ({ s with stack := rest } : PState).newWorkOpen = false := hcl
          rw [hco, if_neg (fun hcc : false = true => Bool.noConfusion hcc)] at h
          simp at h
        · rw [if_neg hwork] at h
          have h2 := Except.ok.inj h
          subst h2
          intro i _
          rfl
      · rw [if_neg hpn] at h
        simp at h

/-- **C6** (work immutability after finalization, amended): every work other
than the last element of the works list is never mutated by any later token
(`NonLastPres`); and when no work is open AND no URL-variant one-shot flag is
raised, a successful step preserves every existing work, including the
finalized last one.  (The claim as written is false: a url text token arriving
after `</work>` still mutates the finalized work through the
`len(works) > 0`-guarded URI blocks — see the counterexample.) -/
theorem work_immutability :
    (∀ (s s' : PState) (t : Token), step s t = .ok s' → NonLastPres s.works s'.works)
    ∧ (∀ (s s' : PState) (t : Token),
        s.newWorkOpen = false →
        s.thumbnailURI = false → s.mediumURI = false → s.largeURI = false →
        step s t = .ok s' →
        ∀ i, i < s.works.length → s'.works.getD i default = s.works.getD i default) :=
  ⟨fun _ _ _ h => step_nonLast h,
   fun _ _ _ hcl hf1 hf2 hf3 h => step_closed_frame hcl hf1 hf2 hf3 h⟩

/-- **C6 counterexample**: in `tsMutate` the work is finalized by `</work>`
with an empty small URI, but the later `url`/`small` text token `boom` is
written into the finalized work, so a later token does mutate a finalized
Work's field. -/
theorem work_immutability_cex :
    ((parseSteps (tsMutate.take 3) initState).map
        (fun s => (s.works.map Work.URISmall, s.newWorkOpen)) = .ok ([""], false))
    ∧ ((parseRun tsMutate).map (fun s => s.works.map Work.URISmall) = .ok ["boom"]) := by
  constructor
  · decide
  · decide

/-- Witness for C6: both conjuncts at concrete states. -/
theorem work_immutability_witness :
    (sTwoWorksAfter.works.getD 0 default = sTwoWorks.works.getD 0 default)
    ∧ (sClosedAfter.works.getD 0 default = sClosedState.works.getD 0 default) := by
  constructor
  · exact (work_immutability.1 sTwoWorks sTwoWorksAfter (.charData "7") (by decide)).2
      0 (by decide)
  · exact work_immutability.2 sClosedState sClosedAfter (.startEl "p" [])
      (by decide) (by decide) (by decide) (by decide) (by decide) 0 (by decide)

/-! ## Claim C7 -/

theorem c7_orphan_id (s : PState) (data : String)
    (hh : s.stack.head? = some "id") (hcl : s.newWorkOpen = false) :
    ∃ e, step s (.charData data) = .error e := by
  have hsplit : stepId s (trimStr data) = .error .idConvert
      ∨ stepId s (trimStr data) = .error .idOrphan := by
    unfold stepId
    rw [if_pos hh]
    cases hA : atoi (trimStr data) with
    | none =>
      left
      rfl
    | some n =>
      right
      dsimp only
      rw [if_neg (by rw [hcl]; decide)]
  cases hsplit with
  | inl h1 =>
    refine ⟨.idConvert, ?_⟩
    show (stepId s (trimStr data)).bind _ = _
    rw [h1]
    rfl
  | inr h1 =>
    refine ⟨.idOrphan, ?_⟩
    show (stepId s (trimStr data)).bind _ = _
    rw [h1]
    rfl

theorem c7_orphan_filename (s : PState) (data : String)
    (hh : s.stack.head? = some "filename") (hcl : s.newWorkOpen = false) :
    step s (.charData data) = .error .filenameOrphan := by
  have hid : stepId s (trimStr data) = .ok s := by
    unfold stepId
    rw [if_neg (by rw [hh]; decide)]
  have hfn : stepFilename s (trimStr data) = .error .filenameOrphan := by
    unfold stepFilename
    rw [if_pos hh, if_neg (by rw [hcl]; decide)]
  show (stepId s (trimStr data)).bind _ = _
  rw [hid]
  show (stepFilename s (trimStr data)).bind _ = _
  rw [hfn]
  rfl

theorem c7_orphan_make (s : PState) (data : String)
    (hh : s.stack.head? = some "make") (hcl : s.newWorkOpen = false) :
    step s (.charData data) = .error .makeOrphan := by
  have hid : stepId s (trimStr data) = .ok s := by
    unfold stepId
    rw [if_neg (by rw [hh]; decide)]
  have hfn : stepFilename s (trimStr data) = .ok s := by
    unfold stepFilename
    rw [if_neg (by rw [hh]; decide)]
  have hmk : stepMake s (trimStr data) = .error .makeOrphan := by
    unfold stepMake
    rw [if_pos hh, if_neg (by rw [hcl]; decide)]
  show (stepId s (trimStr data)).bind _ = _
  rw [hid]
  show (stepFilename s (trimStr data)).bind _ = _
  rw [hfn]
  show (stepMake s (trimStr data)).map _ = _
  rw [hmk]
  rfl

theorem uriBlockSmall_empty {s : PState} (d : String) (hw : s.works = []) :
    uriBlockSmall s d = { s with thumbnailURI := false } := by
  unfold uriBlockSmall
  by_cases h1 : s.thumbnailURI = true
  · rw [if_pos h1, if_neg (by rw [hw]; decide)]
  · rw [if_neg h1]
    have h2 : s.thumbnailURI = false := by
      cases hc : s.thumbnailURI
      · rfl
      · exact absurd hc h1
    rw [← h2]

theorem uriBlockMedium_empty {s : PState} (d : String) (hw : s.works = []) :
    uriBlockMedium s d = { s with mediumURI := false } := by
  unfold uriBlockMedium
  by_cases h1 : s.mediumURI = true
  · rw [if_pos h1, if_neg (by rw [hw]; decide)]
  · rw [if_neg h1]
    have h2 : s.mediumURI = false := by
      cases hc : s.mediumURI
      · rfl
      · exact absurd hc h1
    rw [← h2]

theorem uriBlockLarge_empty {s : PState} (d : String) (hw : s.works = []) :
    uriBlockLarge s d = { s with largeURI := false } := by
  unfold uriBlockLarge
  by_cases h1 : s.largeURI = true
  · rw [if_pos h1, if_neg (by rw [hw]; decide)]
  · rw [if_neg h1]
    have h2 : s.largeURI = false := by
      cases hc : s.largeURI
      · rfl
      · exact absurd hc h1
    rw [← h2]

theorem stepURI_empty {s : PState} (d : String) (hw : s.works = []) :
    stepURI s d = { s with thumbnailURI := false, mediumURI := false, largeURI := false } := by
  unfold stepURI
  rw [uriBlockSmall_empty d hw]
  rw [uriBlockMedium_empty d (show ({ s with thumbnailURI := false } : PState).works = [] from hw)]
  rw [uriBlockLarge_empty d
    (show ({ s with thumbnailURI := false, mediumURI := false } : PState).works = [] from hw)]

theorem c7_orphan_url (s : PState) (data : String)
    (hh : s.stack.head? = some "url") (hw : s.works = []) :
    step s (.charData data)
      = .ok { s with thumbnailURI := false, mediumURI := false, largeURI := false } := by
  have hid : stepId s (trimStr data) = .ok s := by
    unfold stepId
    rw [if_neg (by rw [hh]; decide)]
  have hfn : stepFilename s (trimStr data) = .ok s := by
    unfold stepFilename
    rw [if_neg (by rw [hh]; decide)]
  have hmk : stepMake s (trimStr data) = .ok s :=
    stepMake_noop (by rw [hh]; decide)
  have hmd : stepModel s (trimStr data) = s := by
    unfold stepModel
    rw [if_neg (by rw [hh]; decide)]
  show (stepId s (trimStr data)).bind _ = _
  rw [hid]
  show (stepFilename s (trimStr data)).bind _ = _
  rw [hfn]
  show (stepMake s (trimStr data)).map _ = _
  rw [hmk]
  show Except.ok (stepURI (stepModel s (trimStr data)) (trimStr data)) = _
  rw [hmd, stepURI_empty (trimStr data) hw]

/-- **C7** (strict orphan-field policy, amended): orphan `id`, `filename` and
`make` text tokens abort the run, but an orphan `model` text token is accepted
and records a pending model name, and an orphan url-variant text token with an
empty works list is accepted and merely clears the one-shot flags — the strict
policy is only implemented for id, filename and make. -/
theorem strict_orphan_policy :
    (∀ (s : PState) (data : String),
        s.stack.head? = some "id" → s.newWorkOpen = false →
        ∃ e, step s (.charData data) = .error e)
    ∧ (∀ (s : PState) (data : String),
        s.stack.head? = some "filename" → s.newWorkOpen = false →
        step s (.charData data) = .error .filenameOrphan)
    ∧ (∀ (s : PState) (data : String),
        s.stack.head? = some "make" → s.newWorkOpen = false →
        step s (.charData data) = .error .makeOrphan)
    ∧ (∀ (s : PState) (data : String),
        s.stack.head? = some "model" →
        s.thumbnailURI = false → s.mediumURI = false → s.largeURI = false →
        step s (.charData data)
          = .ok { s with newModel := trimStr data, newModelDetected := true })
    ∧ (∀ (s : PState) (data : String),
        s.stack.head? = some "url" → s.works = [] →
        step s (.charData data)
          = .ok { s with thumbnailURI := false, mediumURI := false, largeURI := false }) :=
  ⟨c7_orphan_id, c7_orphan_filename, c7_orphan_make, c5_model_branch, c7_orphan_url⟩

/-- **C7 counterexample**: an orphan model text token and an orphan url text
token (no enclosing work) are both accepted — the run succeeds instead of
aborting, refuting the claim's model and url-variant clauses. -/
theorem strict_orphan_policy_cex :
    ((parseRun tsOrphanModelStream).map (fun s => (s.newModelDetected, s.newModel))
        = .ok (true, "X"))
    ∧ ((parseRun tsOrphanUrlStream).map (fun s => s.works) = .ok []) := by
  constructor
  · decide
  · decide

/-- Witness for C7: the five conjuncts at concrete orphan states. -/
theorem strict_orphan_policy_witness :
    (exceptIsErr (step sOrphanId (.charData "12")) = true)
    ∧ (step sOrphanFn (.charData "f.jpg") = .error .filenameOrphan)
    ∧ (step sOrphanMk (.charData "Nikon") = .error .makeOrphan)
    ∧ (step sOrphanMd (.charData "D90")
        = .ok { sOrphanMd with newModel := "D90", newModelDetected := true })
    ∧ (step sOrphanUrl (.charData "u.jpg")
        = .ok { sOrphanUrl with thumbnailURI := false, mediumURI := false, largeURI := false }) := by
  refine ⟨?_, ?_, ?_, ?_, ?_⟩
  · obtain ⟨e, he⟩ := strict_orphan_policy.1 sOrphanId "12" (by decide) (by decide)
    rw [he]
    rfl
  · exact strict_orphan_policy.2.1 sOrphanFn "f.jpg" (by decide) (by decide)
  · exact strict_orphan_policy.2.2.1 sOrphanMk "Nikon" (by decide) (by decide)
  · have h := strict_orphan_policy.2.2.2.1 sOrphanMd "D90"
      (by decide) (by decide) (by decide) (by decide)
    rw [h]
    decide
  · exact strict_orphan_policy.2.2.2.2 sOrphanUrl "u.jpg" (by decide) (by decide)

/-! ## Claim C8 -/

theorem length_dropWhile_le (p : Char → Bool) (l : List Char) :
    (l.dropWhile p).length ≤ l.length := by
  induction l with
  | nil => simp
  | cons a t ih =>
    rw [List.dropWhile_cons]
    split
    · exact Nat.le_succ_of_le ih
    · simp

theorem dropWhile_congr_local (p q : Char → Bool) (l : List Char)
    (h : ∀ x ∈ l, p x = q x) : l.dropWhile p = l.dropWhile q := by
  induction l with
  | nil => rfl
  | cons a t ih =>
    rw [List.dropWhile_cons, List.dropWhile_cons, h a (List.mem_cons_self a t)]
    split
    · exact ih (fun x hx => h x (List.mem_cons_of_mem a hx))
    · rfl

theorem collapseAux_cons_eq (b : Bool) (c : Char) (cs : List Char) :
    collapseAux b (c :: cs)
      = if isAlnum c then c :: collapseAux false cs
        else if b then collapseAux true cs else '-' :: collapseAux true cs := rfl

theorem slugSpecChars_nil : slugSpecChars [] = [] := by
  unfold slugSpecChars
  rw [chunks]
  rfl

theorem collapseAux_true_eq (cs : List Char) :
    collapseAux true cs = collapseAux false (cs.dropWhile (fun d => !isAlnum d)) := by
  induction cs with
  | nil => rfl
  | cons c cs ih =>
    by_cases hc : isAlnum c = true
    · have hdw : List.dropWhile (fun d => !isAlnum d) (c :: cs) = c :: cs := by
        simp [List.dropWhile_cons, hc]
      rw [hdw, collapseAux_cons_eq, collapseAux_cons_eq, if_pos hc, if_pos hc]
    · have hcf : isAlnum c = false := by
        cases hcc : isAlnum c
        · rfl
        · exact absurd hcc hc
      have hdw : List.dropWhile (fun d => !isAlnum d) (c :: cs)
          = List.dropWhile (fun d => !isAlnum d) cs := by
        simp [List.dropWhile_cons, hcf]
      rw [hdw, collapseAux_cons_eq, if_neg hc, if_pos rfl]
      exact ih

theorem collapseNonAlnum_cons (c : Char) (cs : List Char) :
    collapseNonAlnum (c :: cs)
      = if isAlnum c then c :: collapseNonAlnum cs
        else '-' :: collapseNonAlnum (cs.dropWhile (fun d => !isAlnum d)) := by
  show collapseAux false (c :: cs) = _
  rw [collapseAux_cons_eq]
  by_cases hc : isAlnum c = true
  · rw [if_pos hc, if_pos hc]
    rfl
  · rw [if_neg hc, if_neg hc, if_neg (fun h : false = true => Bool.noConfusion h),
      collapseAux_true_eq]
    rfl

theorem collapse_alnum_front (a b : List Char) (h : ∀ c ∈ a, isAlnum c = true) :
    collapseNonAlnum (a ++ b) = a ++ collapseNonAlnum b := by
  induction a with
  | nil => rfl
  | cons c cs ih =>
    rw [List.cons_append, collapseNonAlnum_cons, if_pos (h c (List.mem_cons_self c cs)),
      ih (fun x hx => h x (List.mem_cons_of_mem c hx)), List.cons_append]

theorem collapse_eq_slugSpec (l : List Char) : collapseNonAlnum l = slugSpecChars l := by
  have H : ∀ (n : Nat) (l : List Char), l.length ≤ n → collapseNonAlnum l = slugSpecChars l := by
    intro n
    induction n with
    | zero =>
      intro l hl
      rw [Nat.le_zero, List.length_eq_zero] at hl
      subst hl
      exact slugSpecChars_nil.symm
    | succ n ih =>
      intro l hl
      cases l with
      | nil => exact slugSpecChars_nil.symm
      | cons c cs =>
        have hchunk : chunks (c :: cs)
            = (c :: cs.takeWhile (fun d => isAlnum d = isAlnum c))
              :: chunks (cs.dropWhile (fun d => isAlnum d = isAlnum c)) := by
          rw [chunks]
        have hdroplen : (cs.dropWhile (fun d => isAlnum d = isAlnum c)).length ≤ n := by
          have h1 := length_dropWhile_le (fun d => isAlnum d = isAlnum c) cs
          have h2 : cs.length + 1 ≤ n + 1 := by simpa using hl
          omega
        by_cases hc : isAlnum c = true
        · have htw : ∀ x ∈ cs.takeWhile (fun d => isAlnum d = isAlnum c), isAlnum x = true := by
            intro x hx
            have h1 := List.mem_takeWhile_imp hx
            simp only [decide_eq_true_eq] at h1
            rw [h1]
            exact hc
          have hall : ((c :: cs.takeWhile (fun d => isAlnum d = isAlnum c)).all isAlnum) = true := by
            rw [List.all_eq_true]
            intro x hx
            rcases List.mem_cons.mp hx with h | h
            · rw [h]
              exact hc
            · exact htw x h
          have hsplit : cs = cs.takeWhile (fun d => isAlnum d = isAlnum c)
              ++ cs.dropWhile (fun d => isAlnum d = isAlnum c) :=
            (List.takeWhile_append_dropWhile _ cs).symm
          rw [collapseNonAlnum_cons, if_pos hc]
          unfold slugSpecChars
          rw [hchunk, List.map_cons, List.flatten_cons, if_pos hall]
          show c :: collapseNonAlnum cs
              = c :: (cs.takeWhile (fun d => isAlnum d = isAlnum c)
                  ++ slugSpecChars (cs.dropWhile (fun d => isAlnum d = isAlnum c)))
          congr 1
          conv_lhs => rw [hsplit]
          rw [collapse_alnum_front _ _ htw, ih _ hdroplen]
        · have hcf : isAlnum c = false := by
            cases hcc : isAlnum c
            · rfl
            · exact absurd hcc hc
          have hall : ((c :: cs.takeWhile (fun d => isAlnum d = isAlnum c)).all isAlnum) = false := by
            rw [List.all_cons, hcf]
            rfl
          have hdw : cs.dropWhile (fun d => !isAlnum d)
              = cs.dropWhile (fun d => isAlnum d = isAlnum c) := by
            apply dropWhile_congr_local
            intro x _
            rw [hcf]
            cases hx : isAlnum x
            · rfl
            · rfl
          rw [collapseNonAlnum_cons, if_neg hc]
          unfold slugSpecChars
          rw [hchunk, List.map_cons, List.flatten_cons,
            if_neg (by rw [hall]; exact fun hcc : false = true => Bool.noConfusion hcc)]
          show '-' :: collapseNonAlnum (cs.dropWhile (fun d => !isAlnum d))
              = '-' :: ([] ++ slugSpecChars (cs.dropWhile (fun d => isAlnum d = isAlnum c)))
          rw [List.nil_append, hdw, ih _ hdroplen]
  exact H l.length l (le_refl _)

/-- **C8** (slug derivation): the slug the code computes (the `PageURL` fields
set by `createMake` and `createModel`) equals the name with every maximal run
of non-alphanumeric characters replaced by a single `-` separator, as described
by `slugSpec`, and both constructors derive it by the same pure function
`slug` of the name. -/
theorem slug_matches_spec :
    (∀ name : String, slug name = slugSpec name)
    ∧ (∀ name : String, (createMake name).PageURL = slugSpec name)
    ∧ (∀ (name : String) (mk : Nat), (createModel name mk).PageURL = slugSpec name)
    ∧ (∀ (name : String) (mk : Nat), (createMake name).PageURL = (createModel name mk).PageURL) := by
  have main : ∀ name : String, slug name = slugSpec name := by
    intro name
    unfold slug slugSpec
    rw [collapse_eq_slugSpec]
  exact ⟨main, fun name => main name, fun name mk => main name, fun name mk => rfl⟩

/-! ## Claim C9 -/

set_option maxRecDepth 40000 in
/-- **C9** (HTML escaping, code bug): the make page escapes `mk.Name` in the
page title but inserts it RAW inside the `<i>` element (source line 1300).
For a make named `B&W` the generated page contains the unescaped substring
`<i>B&W</i>` and does not contain the escaped form `<i>B&amp;W</i>`, even
though `html.EscapeString` would have produced `B&amp;W`. -/
theorem html_escaping_bug :
    containsSub "<i>B&W</i>".data (makePage initState (createMake "B&W")).data = true
    ∧ containsSub ("<i>" ++ escapeString "B&W" ++ "</i>").data
        (makePage initState (createMake "B&W")).data = false
    ∧ escapeString "B&W" = "B&amp;W" := by
  refine ⟨?_, ?_, ?_⟩
  · decide
  · decide
  · decide

/-! ## Claim C10 -/

theorem data_append_str (s t : String) : (s ++ t).data = s.data ++ t.data := rfl

theorem countImg_cons (c : Char) (rest : List Char) :
    countImg (c :: rest)
      = (if c = '<' ∧ rest.take 3 = ['i', 'm', 'g'] then 1 else 0) + countImg rest := rfl

theorem countImg_append_no_lt (a b : List Char) (h : '<' ∉ a) :
    countImg (a ++ b) = countImg b := by
  induction a with
  | nil => rfl
  | cons c cs ih =>
    have hc : ¬ (c = '<' ∧ ((cs ++ b).take 3 = ['i', 'm', 'g'])) := by
      intro hcc
      refine h ?_
      rw [← hcc.1]
      exact List.mem_cons_self c cs
    rw [List.cons_append, countImg_cons, if_neg hc,
      ih (fun hm => h (List.mem_cons_of_mem c hm)), Nat.zero_add]

theorem countImg_middle (a e b : List Char) (he : '<' ∉ e)
    (ha : '<' ∉ a.drop (a.length - 3)) :
    countImg (a ++ (e ++ b)) = countImg (a ++ b) := by
  induction a with
  | nil =>
    rw [List.nil_append, List.nil_append]
    exact countImg_append_no_lt e b he
  | cons c a2 ih =>
    rw [List.length_cons] at ha
    by_cases h3 : 3 ≤ a2.length
    · have e1 : a2.length + 1 - 3 = (a2.length - 3) + 1 := by omega
      rw [e1, List.drop_succ_cons] at ha
      have ht : (a2 ++ (e ++ b)).take 3 = (a2 ++ b).take 3 := by
        rw [List.take_append_of_le_length h3, List.take_append_of_le_length h3]
      rw [List.cons_append, List.cons_append, countImg_cons, countImg_cons, ht, ih ha]
    · have e0 : a2.length + 1 - 3 = 0 := by omega
      rw [e0, List.drop_zero] at ha
      have hc : ¬ c = '<' := fun hcc => ha (hcc ▸ List.mem_cons_self c a2)
      have ha2 : '<' ∉ a2.drop (a2.length - 3) :=
        fun hm => ha (List.mem_cons_of_mem c (List.mem_of_mem_drop hm))
      rw [List.cons_append, List.cons_append, countImg_cons, countImg_cons,
        if_neg (fun hcc => hc hcc.1), if_neg (fun hcc => hc hcc.1), ih ha2]

theorem escChar_no_lt (c : Char) : '<' ∉ escChar c := by
  unfold escChar
  by_cases h1 : c = '&'
  · rw [if_pos h1]
    decide
  · rw [if_neg h1]
    by_cases h2 : c = '\''
    · rw [if_pos h2]
      decide
    · rw [if_neg h2]
      by_cases h3 : c = '<'
      · rw [if_pos h3]
        decide
      · rw [if_neg h3]
        by_cases h4 : c = '>'
        · rw [if_pos h4]
          decide
        · rw [if_neg h4]
          by_cases h5 : c = '"'
          · rw [if_pos h5]
            decide
          · rw [if_neg h5]
            intro hm
            rw [List.mem_singleton] at hm
            exact h3 hm.symm

theorem escape_no_lt (s : String) : '<' ∉ (escapeString s).data := by
  intro hm
  have hm2 : '<' ∈ s.data.flatMap escChar := hm
  obtain ⟨c, _, hmem⟩ := List.mem_flatMap.mp hm2
  exact escChar_no_lt c hmem

set_option maxRecDepth 40000 in
theorem countImg_genericPage (w : Work) : countImg (genericPage w).data = 1 := by
  have he := escape_no_lt w.URISmall
  unfold genericPage imgTag
  rw [data_append_str, data_append_str, data_append_str, data_append_str]
  simp only [List.append_assoc]
  rw [← List.append_assoc]
  refine (countImg_middle _ _ _ he ?_).trans ?_
  · decide
  · decide

theorem lookup_upsert_same (st : List (String × String)) (k v : String) :
    (upsert st k v).lookup k = some v := by
  induction st with
  | nil => simp [upsert, List.lookup]
  | cons p rest ih =>
    obtain ⟨k0, v0⟩ := p
    unfold upsert
    by_cases h : k0 = k
    · rw [if_pos h]
      simp [List.lookup]
    · rw [if_neg h]
      have hb : (k == k0) = false := beq_eq_false_iff_ne.mpr (fun hcc => h hcc.symm)
      simp [List.lookup, hb]
      exact ih

theorem lookup_upsert_ne (st : List (String × String)) (k v k2 : String) (h : k2 ≠ k) :
    (upsert st k v).lookup k2 = st.lookup k2 := by
  induction st with
  | nil =>
    have hb : (k2 == k) = false := beq_eq_false_iff_ne.mpr h
    simp [upsert, List.lookup, hb]
  | cons p rest ih =>
    obtain ⟨k0, v0⟩ := p
    unfold upsert
    by_cases h0 : k0 = k
    · rw [if_pos h0]
      have hb : (k2 == k) = false := beq_eq_false_iff_ne.mpr h
      have hb0 : (k2 == k0) = false := beq_eq_false_iff_ne.mpr (h0 ▸ h)
      simp [List.lookup, hb, hb0]
    · rw [if_neg h0]
      by_cases hk2 : k2 = k0
      · subst hk2
        simp [List.lookup]
      · have hb0 : (k2 == k0) = false := beq_eq_false_iff_ne.mpr hk2
        simp [List.lookup, hb0]
        exact ih

theorem lookup_inner_models (s : PState) (mk : Make) (mds : List Model)
    (st : List (String × String))
    (h : ∀ md ∈ mds, md.PageURL ++ ".html" ≠ "nomake.html") :
    ((mds.foldl (fun st md => upsert st (md.PageURL ++ ".html") (modelPage s mk md)) st).lookup
        "nomake.html") = st.lookup "nomake.html" := by
  induction mds generalizing st with
  | nil => rfl
  | cons md mds ih =>
    rw [List.foldl_cons, ih _ (fun md2 hm => h md2 (List.mem_cons_of_mem md hm)),
      lookup_upsert_ne _ _ _ _ (fun hcc => h md (List.mem_cons_self md mds) hcc.symm)]

theorem lookup_models_fold (s : PState) (ms : List Make) (st : List (String × String))
    (h : ∀ mk ∈ ms, ∀ md ∈ mk.Models, md.PageURL ++ ".html" ≠ "nomake.html") :
    ((ms.foldl (fun st mk =>
        mk.Models.foldl (fun st md => upsert st (md.PageURL ++ ".html") (modelPage s mk md)) st)
      st).lookup "nomake.html") = st.lookup "nomake.html" := by
  induction ms generalizing st with
  | nil => rfl
  | cons mk ms ih =>
    rw [List.foldl_cons, ih _ (fun mk2 hm => h mk2 (List.mem_cons_of_mem mk hm)),
      lookup_inner_models s mk mk.Models st (h mk (List.mem_cons_self mk ms))]

theorem lookup_nomake_fold (s : PState) (l : List Nat) (st : List (String × String))
    (last : Nat) (hl : l.getLast? = some last) :
    ((l.foldl (fun st wi => upsert st "nomake.html" (genericPage (s.works.getD wi default))) st).lookup
        "nomake.html") = some (genericPage (s.works.getD last default)) := by
  induction l generalizing st with
  | nil => cases hl
  | cons a t ih =>
    cases t with
    | nil =>
      have ha : a = last := Option.some.inj hl
      subst ha
      rw [List.foldl_cons]
      exact lookup_upsert_same _ _ _
    | cons b u =>
      have hl2 : (b :: u).getLast? = some last := by
        rw [← List.getLast?_cons_cons]
        exact hl
      rw [List.foldl_cons]
      exact ih _ hl2

/-- **C10** (nomake.html recreated per no-make work): the generation loop runs
one `os.Create` of `nomake.html` per no-make work, each truncating the file,
so after rendering, `nomake.html` holds exactly the page of the LAST no-make
work in encounter order, and that page contains exactly one `<img` thumbnail —
regardless of how many no-make works exist.  (Model pages are written after
the loop, so the statement assumes no model slug collides with `nomake`.) -/
theorem nomake_overwritten (s : PState) (last : Nat)
    (hl : s.worksSM.getLast? = some last)
    (hmodels : ∀ mk ∈ s.makes, ∀ md ∈ mk.Models, md.PageURL ++ ".html" ≠ "nomake.html") :
    (renderSite s).lookup "nomake.html" = some (genericPage (s.works.getD last default))
    ∧ countImg (genericPage (s.works.getD last default)).data = 1 := by
  have hne : s.worksSM ≠ [] := by
    intro hc
    rw [hc] at hl
    cases hl
  have hpos : s.worksSM.length > 0 := List.length_pos.mpr hne
  constructor
  · unfold renderSite
    rw [lookup_models_fold s s.makes _ hmodels, if_pos hpos]
    exact lookup_nomake_fold s s.worksSM _ last hl
  · exact countImg_genericPage _

/-- Witness for C10: two no-make works; the file holds the second work's page
with one image. -/
theorem nomake_overwritten_witness :
    (renderSite sNomakeTwo).lookup "nomake.html"
      = some (genericPage (sNomakeTwo.works.getD 1 default))
    ∧ countImg (genericPage (sNomakeTwo.works.getD 1 default)).data = 1 :=
  nomake_overwritten sNomakeTwo 1 (by decide) (by decide)

end ImageProcessor
